import Mathlib

/-!
Verification of the floating-IP pool range engine of the galaxy IPAM core
(`pkg/ipam/floatingip/floatingip.go`).

IPv4 addresses are modelled as natural numbers below 2^32 (the numeric value
returned by `nets.IPToInt`).  Go `uint32` arithmetic that can wrap is made
explicit with `% 2^32`.  Strings are modelled as lists of characters.
-/

namespace Galaxy

/-- Truncation to 32 bits, the behaviour of a Go `uint32`. -/
def u32 (n : Nat) : Nat := n % 2 ^ 32

/-- Successor in `uint32` arithmetic; models Go `nets.IPToInt(ip) + 1`
performed on a `uint32`, which wraps at 2^32. -/
def u32succ (n : Nat) : Nat := (n + 1) % 2 ^ 32

/-- Predecessor in `uint32` arithmetic; models Go `nets.IPToInt(ip) - 1`
performed on a `uint32`, which wraps below 0. -/
def u32pred (n : Nat) : Nat := (n + (2 ^ 32 - 1)) % 2 ^ 32

/-- Modelled from the spec: `nets.IPRange` (not under src/), an inclusive
`[First, Last]` interval of addresses, the atomic unit the pool manipulates. -/
structure IPRange where
  first : Nat
  last : Nat
deriving DecidableEq, Repr

/-- Modelled from the spec: `nets.IPRange.Contains` (not under src/) is true
iff `First <= addr <= Last`, comparing numeric address values. -/
def IPRange.contains (r : IPRange) (ip : Nat) : Bool :=
  decide (r.first ≤ ip) && decide (ip ≤ r.last)

/-- Source `Minus` (floatingip.go): the exact signed difference of the two
numeric address values, computed in `int64` so it never overflows. -/
def Minus (a b : Nat) : Int := (a : Int) - (b : Int)

/-- Source `FloatingIPPool` (floatingip.go) flattened with the embedded
`nets.SparseSubnet` (Gateway, Mask, Vlan, IPRanges).  The routable subnet is
stored as its (masked) address plus mask.  The embedded mutex is not part of
the functional state. -/
structure FloatingIPPool where
  routableBase : Nat
  routableMask : Nat
  gateway : Nat
  mask : Nat
  vlan : Nat
  ipRanges : List IPRange
deriving DecidableEq, Repr

instance : Inhabited FloatingIPPool := ⟨⟨0, 0, 0, 0, 0, []⟩⟩

/-- Modelled from the Go standard library `net.IPNet.Contains`, used by the
source: an address is in the subnet iff it agrees with the subnet address on
all mask bits (Go masks both sides before comparing). -/
def ipNetContains (base mask ip : Nat) : Bool :=
  decide (Nat.land ip mask = Nat.land base mask)

/-- Containment in the floating-IP subnet defined by Gateway/Mask.  Both
`fip.SparseSubnet.IPNet().Contains(ip)` (InsertIP), `fip.IPNet().Contains(ip)`
(RemoveIP) and `net.IPNet{IP: fip.Gateway, Mask: fip.Mask}.Contains(ip)`
(fipCheck) reduce to this predicate, because Go `Contains` masks both sides. -/
def FloatingIPPool.subnetContains (p : FloatingIPPool) (ip : Nat) : Bool :=
  ipNetContains p.gateway p.mask ip

/-- Source `FloatingIPPool.Contains` (floatingip.go lines 134-141): scans the
range list for a range containing the address. -/
def inRanges (rs : List IPRange) (x : Nat) : Bool :=
  rs.any fun r => r.contains x

/-- Source `FloatingIPPool.tryMerge` (floatingip.go lines 184-196) acting on
the adjacent pair `IPRanges[i], IPRanges[i+1]`: they are merged into one range
exactly when `Minus(IPRanges[i+1].First, IPRanges[i].Last) == 1`.  The index
guards (`i < 0`, `i+1 == len`) are handled at the call sites below. -/
def tryMerge (a b : IPRange) : List IPRange :=
  if Minus b.first a.last = 1 then [⟨a.first, b.last⟩] else [a, b]

/-- Source `FloatingIPPool.InsertIP` loop body (floatingip.go lines 153-181)
for index `i ≥ 1`, where `prev` is `IPRanges[i-1]` and the argument list is
`IPRanges[i:]`; the returned list replaces `IPRanges[i-1:]`.  `none` models
the `return false` of the double-release branch.  The final `[prev, ⟨ip,ip⟩]`
is the append after the loop (line 180).  `tryMerge prev ⟨ip, r.last⟩` is
`tryMerge(i-1)` after the low-side extension; `tryMerge ⟨r.first, ip⟩ r2` is
`tryMerge(i)` after the high-side extension, whose `i+1 == len` guard is the
`[]` case of the inner match. -/
def insertLoop (ip : Nat) (prev : IPRange) : List IPRange → Option (List IPRange)
  | [] => some [prev, ⟨ip, ip⟩]
  | r :: rest =>
    if r.contains ip then none
    else if Minus r.first ip > 1 then some (prev :: ⟨ip, ip⟩ :: r :: rest)
    else if Minus r.first ip = 1 then some (tryMerge prev ⟨ip, r.last⟩ ++ rest)
    else if Minus r.last ip = -1 then
      match rest with
      | [] => some [prev, ⟨r.first, ip⟩]
      | r2 :: rest2 => some (prev :: (tryMerge ⟨r.first, ip⟩ r2 ++ rest2))
    else (insertLoop ip r rest).map (prev :: ·)

/-- Source `FloatingIPPool.InsertIP` loop (floatingip.go lines 153-181)
starting at index `i = 0`, where `tryMerge(i-1) = tryMerge(-1)` is a no-op by
its `i < 0` guard.  From index 1 on, the scan continues in `insertLoop`. -/
def insertRanges (ip : Nat) : List IPRange → Option (List IPRange)
  | [] => some [⟨ip, ip⟩]
  | r :: rest =>
    if r.contains ip then none
    else if Minus r.first ip > 1 then some (⟨ip, ip⟩ :: r :: rest)
    else if Minus r.first ip = 1 then some (⟨ip, r.last⟩ :: rest)
    else if Minus r.last ip = -1 then
      match rest with
      | [] => some [⟨r.first, ip⟩]
      | r2 :: rest2 => some (tryMerge ⟨r.first, ip⟩ r2 ++ rest2)
    else insertLoop ip r rest

/-- Source `FloatingIPPool.InsertIP` (floatingip.go lines 145-182): rejects
addresses outside the floating-IP subnet, appends a singleton range to an
empty list, otherwise runs the scan. -/
def FloatingIPPool.insertIP (p : FloatingIPPool) (ip : Nat) : Bool × FloatingIPPool :=
  if ¬ p.subnetContains ip then (false, p)
  else if p.ipRanges.isEmpty then (true, { p with ipRanges := p.ipRanges ++ [⟨ip, ip⟩] })
  else
    match insertRanges ip p.ipRanges with
    | none => (false, p)
    | some rs => (true, { p with ipRanges := rs })

/-- Source `FloatingIPPool.RemoveIP` loop (floatingip.go lines 207-227): finds
the range containing the address and applies one of the four cases (delete a
singleton, advance `First`, retreat `Last`, split in two).  The `+1`/`-1`
steps are `uint32` arithmetic (`nets.IntToIP(nets.IPToInt(..) + 1)` etc.),
hence `u32succ`/`u32pred`.  `none` models falling off the loop (`return
false`). -/
def removeRanges (ip : Nat) : List IPRange → Option (List IPRange)
  | [] => none
  | r :: rest =>
    if r.contains ip then
      some (if r.first = r.last then rest
        else if r.first = ip then ⟨u32succ r.first, r.last⟩ :: rest
        else if r.last = ip then ⟨r.first, u32pred r.last⟩ :: rest
        else ⟨r.first, u32pred ip⟩ :: ⟨u32succ ip, r.last⟩ :: rest)
    else (removeRanges ip rest).map (r :: ·)

/-- Source `FloatingIPPool.RemoveIP` (floatingip.go lines 199-229): rejects
addresses outside the floating-IP subnet, returns false on an empty range
list, otherwise runs the scan. -/
def FloatingIPPool.removeIP (p : FloatingIPPool) (ip : Nat) : Bool × FloatingIPPool :=
  if ¬ p.subnetContains ip then (false, p)
  else if p.ipRanges.isEmpty then (false, p)
  else
    match removeRanges ip p.ipRanges with
    | none => (false, p)
    | some rs => (true, { p with ipRanges := rs })

/-- Source `FloatingIPPool.Contains` (floatingip.go lines 134-141). -/
def FloatingIPPool.containsIP (p : FloatingIPPool) (ip : Nat) : Bool :=
  inRanges p.ipRanges ip

/-! ### Serialization codec

Range texts are modelled as lists of characters.  The textual grammar of
`nets.ParseIPRange` and `nets.IPRange.String` (not under src/) is modelled
from the spec: a range is a single dotted-quad address or `addr1-addr2`. -/

/-- Decimal digits of a natural number, most significant first; the fuel
argument (any bound on the digit count, here the number itself) keeps the
recursion structural. -/
def natDigitsAux (fuel n : Nat) : List Char :=
  match fuel with
  | 0 => []
  | fuel + 1 =>
    if n < 10 then [Nat.digitChar n]
    else natDigitsAux fuel (n / 10) ++ [Nat.digitChar (n % 10)]

/-- Decimal digits of a natural number, most significant first. -/
def natDigits (n : Nat) : List Char := natDigitsAux (n + 1) n

/-- Parse a nonempty all-digit character list as a decimal number. -/
def parseDecimal (cs : List Char) : Option Nat :=
  match cs with
  | [] => none
  | _ :: _ =>
    cs.foldl (fun acc c =>
      match acc with
      | none => none
      | some n => if c.isDigit then some (n * 10 + (c.toNat - 48)) else none)
      (some 0)

/-- Parse one dotted-quad octet: a decimal number of value at most 255. -/
def parseOctet (cs : List Char) : Option Nat :=
  match parseDecimal cs with
  | none => none
  | some n => if n ≤ 255 then some n else none

/-- Split a character list on a separator character; the result is always
nonempty, and separators are not included in the chunks. -/
def splitOnChar (c : Char) : List Char → List (List Char)
  | [] => [[]]
  | x :: xs =>
    if x = c then [] :: splitOnChar c xs
    else
      match splitOnChar c xs with
      | [] => [[x]]
      | g :: gs => (x :: g) :: gs

/-- Modelled from the spec: dotted-quad rendering of a 32-bit address, as
produced by `net.IP.String` for IPv4 addresses. -/
def ipChars (n : Nat) : List Char :=
  natDigits (n / 16777216 % 256) ++ '.' ::
    (natDigits (n / 65536 % 256) ++ '.' ::
      (natDigits (n / 256 % 256) ++ '.' :: natDigits (n % 256)))

/-- Modelled from the spec: parsing of a dotted-quad IPv4 address (the
behaviour of `net.ParseIP` on the addresses this codec handles): four
dot-separated decimal octets. -/
def parseIPv4 (cs : List Char) : Option Nat :=
  match splitOnChar '.' cs with
  | [a, b, c, d] =>
    match parseOctet a, parseOctet b, parseOctet c, parseOctet d with
    | some x, some y, some z, some w => some (x * 16777216 + y * 65536 + z * 256 + w)
    | _, _, _, _ => none
  | _ => none

/-- Modelled from the spec: `nets.IPRange.String` (not under src/) renders the
canonical textual form, a single address when `First == Last`, and
`first-last` otherwise. -/
def IPRange.toChars (r : IPRange) : List Char :=
  if r.first = r.last then ipChars r.first
  else ipChars r.first ++ '-' :: ipChars r.last

/-- Modelled from the spec: `nets.ParseIPRange` (not under src/) parses a
single address as a singleton range and `addr1-addr2` as a two-endpoint
range; anything else fails. -/
def parseIPRange (cs : List Char) : Option IPRange :=
  match splitOnChar '-' cs with
  | [a] => (parseIPv4 a).map fun ip => ⟨ip, ip⟩
  | [a, b] =>
    match parseIPv4 a, parseIPv4 b with
    | some x, some y => some ⟨x, y⟩
    | _, _ => none
  | _ => none

/-- Modelled from the spec: a CIDR value as carried by `nets.IPNet`, an
address together with a mask. -/
structure IPNetConf where
  ip : Nat
  mask : Nat
deriving DecidableEq, Repr

/-- Source `FloatingIPPoolConf` (floatingip.go lines 47-53): the JSON-shaped
configuration document.  `Option` models an absent (`nil`) field; `vlan`
defaults to 0 when omitted. -/
structure FloatingIPPoolConf where
  routableSubnet : Option IPNetConf
  ips : List (List Char)
  subnet : Option IPNetConf
  gateway : Option Nat
  vlan : Nat
deriving DecidableEq, Repr

/-- Decode-time errors of `UnmarshalJSON`/`fipCheck`, one constructor per
named error message of the source. -/
inductive DecodeError where
  | routableSubnetEmpty
  | gatewayEmpty
  | subnetEmpty
  | invalidIPRange (s : List Char)
  | rangeNotInSubnet (r : IPRange) (gw mask : Nat)
  | rangeOrder (a b : IPRange)
deriving DecidableEq, Repr

/-- Source `MarshalJSON` (floatingip.go lines 56-67): emits the routable
subnet as stored, the floating-IP subnet as `Gateway` masked with `Mask`
(`fip.IPNet()`), the gateway, the vlan, and the textual ranges in stored
order. -/
def FloatingIPPool.marshalJSON (p : FloatingIPPool) : FloatingIPPoolConf :=
  { routableSubnet := some ⟨p.routableBase, p.routableMask⟩
    subnet := some ⟨Nat.land p.gateway p.mask, p.mask⟩
    gateway := some p.gateway
    vlan := p.vlan
    ips := p.ipRanges.map IPRange.toChars }

/-- Source `UnmarshalJSON` ips loop (floatingip.go lines 92-99): parse the
entries in order, failing on the first entry `ParseIPRange` rejects. -/
def parseIPs : List (List Char) → Except DecodeError (List IPRange)
  | [] => .ok []
  | s :: rest =>
    match parseIPRange s with
    | none => .error (.invalidIPRange s)
    | some r => (parseIPs rest).map (r :: ·)

/-- Source `fipCheck` loop for `i ≥ 1` (floatingip.go lines 105-115), where
`prev` is `IPRanges[i-1]`: check containment of range `i` in the subnet
`{IP: Gateway, Mask}` first, then the order condition
`IPToInt(First_i) <= IPToInt(Last_(i-1)) + 1` computed in `uint32`
arithmetic (hence `u32succ`). -/
def fipCheckFrom (gw mask : Nat) : IPRange → List IPRange → Except DecodeError Unit
  | _, [] => .ok ()
  | prev, r :: rest =>
    if ¬ (ipNetContains gw mask r.first ∧ ipNetContains gw mask r.last) then
      .error (.rangeNotInSubnet r gw mask)
    else if r.first ≤ u32succ prev.last then .error (.rangeOrder prev r)
    else fipCheckFrom gw mask r rest

/-- Source `fipCheck` (floatingip.go lines 103-117): range 0 undergoes only
the containment check (`i != 0` guards the order check); later ranges are
checked by `fipCheckFrom`. -/
def fipCheck (gw mask : Nat) : List IPRange → Except DecodeError Unit
  | [] => .ok ()
  | r :: rest =>
    if ¬ (ipNetContains gw mask r.first ∧ ipNetContains gw mask r.last) then
      .error (.rangeNotInSubnet r gw mask)
    else fipCheckFrom gw mask r rest

/-- Source `UnmarshalJSON` (floatingip.go lines 70-101) after the JSON layer:
require `routableSubnet` (stored masked), `gateway` and `subnet` (only its
mask is kept), copy `vlan`, parse the `ips` entries appending them to the
ranges already on the receiver, then run `fipCheck`. -/
def FloatingIPPool.unmarshalJSON (fip : FloatingIPPool) (conf : FloatingIPPoolConf) :
    Except DecodeError FloatingIPPool :=
  match conf.routableSubnet with
  | none => .error .routableSubnetEmpty
  | some rsub =>
    match conf.gateway with
    | none => .error .gatewayEmpty
    | some gw =>
      match conf.subnet with
      | none => .error .subnetEmpty
      | some sub =>
        match parseIPs conf.ips with
        | .error e => .error e
        | .ok parsed =>
          match fipCheck gw sub.mask (fip.ipRanges ++ parsed) with
          | .error e => .error e
          | .ok _ =>
            .ok { fip with
              routableBase := Nat.land rsub.ip rsub.mask
              routableMask := rsub.mask
              gateway := gw
              mask := sub.mask
              vlan := conf.vlan
              ipRanges := fip.ipRanges ++ parsed }

/-! ### Pool ordering -/

/-- Modelled from the spec: the first address of a subnet as returned by
`nets.FirstAndLastIP` (not under src/), the numeric value of the subnet
address under its mask. -/
def poolFirstIP (p : FloatingIPPool) : Nat :=
  Nat.land p.routableBase p.routableMask

/-- Source `FloatingIPSlice.Less` (floatingip.go lines 249-253): compare the
numeric first addresses of the routable subnets of pools `i` and `j`. -/
def sliceLess (s : List FloatingIPPool) (i j : Nat) : Bool :=
  decide (poolFirstIP (s.getD i default) < poolFirstIP (s.getD j default))

/-- Insertion of a pool into a list sorted by the `Less` order. -/
def insertPool (x : FloatingIPPool) : List FloatingIPPool → List FloatingIPPool
  | [] => [x]
  | y :: ys => if poolFirstIP x < poolFirstIP y then x :: y :: ys else y :: insertPool x ys

/-- Sorting a pool collection by the `Less` order, the way `sort.Sort`
(external) consumes the `FloatingIPSlice` interface. -/
def sortPools : List FloatingIPPool → List FloatingIPPool
  | [] => []
  | x :: xs => insertPool x (sortPools xs)

/-! ### Invariants

`rangeWF` is implicit well-formedness of a range of 32-bit addresses;
`gapped` is invariant I2 for one consecutive pair (non-adjacent,
non-overlapping); `rangesOK` is I2 (plus well-formedness) for the whole
list, from which I1 (sorted strictly ascending by `First`) follows;
`validPool` adds I3 (ranges inside the Gateway/Mask subnet, checked at the
endpoints exactly as `fipCheck` does). -/

/-- Well-formedness of one range: ordered endpoints, 32-bit addresses. -/
def rangeWF (r : IPRange) : Prop := r.first ≤ r.last ∧ r.last < 2 ^ 32

/-- Invariant I2 for a consecutive pair: a gap of at least one address. -/
def gapped (a b : IPRange) : Prop := a.last + 1 < b.first

/-- Invariants I1 and I2 for a range list. -/
def rangesOK (rs : List IPRange) : Prop :=
  (∀ r ∈ rs, rangeWF r) ∧ rs.Chain' gapped

/-- Invariants I1, I2 and I3 of a pool. -/
def validPool (p : FloatingIPPool) : Prop :=
  rangesOK p.ipRanges ∧
    ∀ r ∈ p.ipRanges, p.subnetContains r.first = true ∧ p.subnetContains r.last = true

/-- The mask is a CIDR prefix mask, as every mask built by parsing a CIDR
string is: all mask bits are a contiguous high-bit block of the 32-bit word. -/
def isCidrMask (mask : Nat) : Prop := ∃ s, s ≤ 32 ∧ mask = 2 ^ 32 - 2 ^ s

/-! ### Basic lemmas -/

@[simp] lemma contains_eq_true {r : IPRange} {x : Nat} :
    r.contains x = true ↔ (r.first ≤ x ∧ x ≤ r.last) := by
  simp [IPRange.contains]

@[simp] lemma inRanges_nil (x : Nat) : inRanges [] x = false := rfl

@[simp] lemma inRanges_cons {r : IPRange} {rs : List IPRange} {x : Nat} :
    inRanges (r :: rs) x = (r.contains x || inRanges rs x) := by
  simp [inRanges]

lemma inRanges_append {rs ts : List IPRange} {x : Nat} :
    inRanges (rs ++ ts) x = (inRanges rs x || inRanges ts x) := by
  simp [inRanges, List.any_append]

lemma Minus_gt_one {a b : Nat} : Minus a b > 1 ↔ b + 1 < a := by
  simp [Minus]; omega

lemma Minus_eq_one {a b : Nat} : Minus a b = 1 ↔ a = b + 1 := by
  simp [Minus]; omega

lemma Minus_eq_neg_one {a b : Nat} : Minus a b = -1 ↔ b = a + 1 := by
  simp [Minus]; omega

lemma u32succ_eq {n : Nat} (h : n + 1 < 2 ^ 32) : u32succ n = n + 1 := by
  simp [u32succ]; omega

lemma u32pred_eq {n : Nat} (h0 : 0 < n) (h : n < 2 ^ 32) : u32pred n = n - 1 := by
  simp [u32pred]; omega

lemma rangesOK_nil : rangesOK [] := ⟨by simp, List.chain'_nil⟩

lemma rangesOK_singleton {r : IPRange} (h : rangeWF r) : rangesOK [r] := by
  exact ⟨by simpa using h, List.chain'_singleton r⟩

lemma rangesOK_tail {r : IPRange} {rs : List IPRange} (h : rangesOK (r :: rs)) :
    rangesOK rs :=
  ⟨fun s hs => h.1 s (List.mem_cons_of_mem _ hs), (List.chain'_cons'.mp h.2).2⟩

lemma rangesOK_head_wf {r : IPRange} {rs : List IPRange} (h : rangesOK (r :: rs)) :
    rangeWF r := h.1 r (List.mem_cons_self _ _)

/-- Transitive form of I2: every later range starts strictly beyond the gap
after the head. -/
lemma rangesOK_head_gap {r : IPRange} {rs : List IPRange} (h : rangesOK (r :: rs)) :
    ∀ s ∈ rs, r.last + 1 < s.first := by
  induction rs generalizing r with
  | nil => simp
  | cons s rs ih =>
    intro t ht
    have hgap : r.last + 1 < s.first := (List.chain'_cons'.mp h.2).1 s rfl
    rcases List.mem_cons.mp ht with rfl | ht
    · exact hgap
    · have hs : rangeWF s := h.1 s (by simp)
      have := ih (rangesOK_tail h) t ht
      have : s.last + 1 < t.first := this
      have : s.first ≤ s.last := hs.1
      omega

lemma rangesOK_cons {r : IPRange} {rs : List IPRange} (hr : rangeWF r)
    (hrs : rangesOK rs) (hgap : ∀ s ∈ rs.head?, gapped r s) : rangesOK (r :: rs) := by
  refine ⟨?_, List.chain'_cons'.mpr ⟨hgap, hrs.2⟩⟩
  intro s hs
  rcases List.mem_cons.mp hs with rfl | hs
  · exact hr
  · exact hrs.1 s hs

@[simp] lemma singleton_contains {ip x : Nat} :
    (⟨ip, ip⟩ : IPRange).contains x = true ↔ x = ip := by
  simp [IPRange.contains]; omega

/-- Every endpoint of a range of `rs'` is either the inserted address or an
endpoint of a range of `rs`; used to propagate invariant I3 through
`InsertIP` (every new endpoint was checked against the subnet or was already
in it). -/
def endpointsFrom (rs' rs : List IPRange) (ip : Nat) : Prop :=
  ∀ r' ∈ rs',
    (r'.first = ip ∨ ∃ r, r ∈ rs ∧ (r'.first = r.first ∨ r'.first = r.last)) ∧
    (r'.last = ip ∨ ∃ r, r ∈ rs ∧ (r'.last = r.first ∨ r'.last = r.last))

lemma endpointsFrom_mono {rs' rs0 rs1 : List IPRange} {ip : Nat}
    (h : endpointsFrom rs' rs0 ip) (hsub : ∀ r ∈ rs0, r ∈ rs1) :
    endpointsFrom rs' rs1 ip := by
  intro r' h'
  obtain ⟨hf, hl⟩ := h r' h'
  constructor
  · rcases hf with hf | ⟨r, hr, hf⟩
    · exact Or.inl hf
    · exact Or.inr ⟨r, hsub r hr, hf⟩
  · rcases hl with hl | ⟨r, hr, hl⟩
    · exact Or.inl hl
    · exact Or.inr ⟨r, hsub r hr, hl⟩

/-- A strict lower bound on all firsts of the source list, below the inserted
address, bounds all firsts of a list with endpoints drawn from it. -/
lemma endpointsFrom_lower {rs' rs : List IPRange} {ip b : Nat}
    (he : endpointsFrom rs' rs ip) (hb : ∀ r ∈ rs, b < r.first)
    (hwf : ∀ r ∈ rs, rangeWF r) (hip : b < ip) :
    ∀ r' ∈ rs', b < r'.first := by
  intro r' h'
  rcases (he r' h').1 with hf | ⟨r, hr, hf | hf⟩
  · omega
  · have := hb r hr; omega
  · have h1 := hb r hr
    have h2 := (hwf r hr).1
    omega

lemma inRanges_eq_false {rs : List IPRange} {x : Nat}
    (h : ∀ s ∈ rs, ¬ (s.first ≤ x ∧ x ≤ s.last)) : inRanges rs x = false := by
  simp only [inRanges, List.any_eq_false]
  intro s hs
  simpa using h s hs

theorem insertLoop_spec (ip : Nat) (hip : ip < 2 ^ 32) :
    ∀ (rs : List IPRange) (prev : IPRange), rangesOK (prev :: rs) → prev.last + 1 < ip →
      ((insertLoop ip prev rs = none ↔ inRanges rs ip = true) ∧
       ∀ rs', insertLoop ip prev rs = some rs' →
         rangesOK rs' ∧
         (∀ x, inRanges rs' x = true ↔ (inRanges (prev :: rs) x = true ∨ x = ip)) ∧
         endpointsFrom rs' (prev :: rs) ip) := by
  intro rs
  induction rs with
  | nil =>
    intro prev hok hprev
    have hwfprev : rangeWF prev := rangesOK_head_wf hok
    constructor
    · simp [insertLoop]
    · intro rs' hres
      have hrs' : rs' = [prev, ⟨ip, ip⟩] := by
        simpa [insertLoop] using hres.symm
      subst hrs'
      refine ⟨?_, ?_, ?_⟩
      · refine rangesOK_cons hwfprev (rangesOK_singleton ⟨le_rfl, hip⟩) ?_
        intro s hs
        simp at hs
        subst hs
        exact hprev
      · intro x
        cases hpx : prev.contains x <;> simp [hpx] <;> omega
      · intro r' h'
        rcases List.mem_cons.mp h' with rfl | h'
        · exact ⟨Or.inr ⟨r', List.mem_cons_self _ _, Or.inl rfl⟩,
                 Or.inr ⟨r', List.mem_cons_self _ _, Or.inr rfl⟩⟩
        · simp at h'
          subst h'
          exact ⟨Or.inl rfl, Or.inl rfl⟩
  | cons r rest ih =>
    intro prev hok hprev
    have hwfprev : rangeWF prev := rangesOK_head_wf hok
    have hokr : rangesOK (r :: rest) := rangesOK_tail hok
    have hwfr : rangeWF r := rangesOK_head_wf hokr
    have hgap : prev.last + 1 < r.first := (List.chain'_cons'.mp hok.2).1 r rfl
    have hwfr1 : r.first ≤ r.last := hwfr.1
    have hwfrb : r.last < 2 ^ 32 := hwfr.2
    have hwfprev1 : prev.first ≤ prev.last := hwfprev.1
    have hrestgap : ∀ s ∈ rest, r.last + 1 < s.first := rangesOK_head_gap hokr
    have hrestwf : ∀ s ∈ rest, rangeWF s := fun s hs => hokr.1 s (List.mem_cons_of_mem _ hs)
    by_cases hc : r.contains ip = true
    · constructor
      · simp [insertLoop, hc]
      · intro rs' hres
        simp [insertLoop, hc] at hres
    · have hcn : ¬ (r.first ≤ ip ∧ ip ≤ r.last) := by
        simpa using hc
      by_cases h1 : Minus r.first ip > 1
      · -- genuine gap below r: insert a fresh singleton before r
        have h1' : ip + 1 < r.first := Minus_gt_one.mp h1
        have hres0 : insertLoop ip prev (r :: rest) = some (prev :: ⟨ip, ip⟩ :: r :: rest) := by
          simp [insertLoop, hc, h1]
        have hninr : inRanges (r :: rest) ip = false := by
          refine inRanges_eq_false ?_
          intro s hs
          rcases List.mem_cons.mp hs with rfl | hs
          · omega
          · have := hrestgap s hs
            have := hwfr.1
            omega
        constructor
        · simp [hres0, hninr]
        · intro rs' hres
          rw [hres0] at hres
          injection hres with hres
          subst hres
          refine ⟨?_, ?_, ?_⟩
          · refine rangesOK_cons hwfprev ?_ ?_
            · refine rangesOK_cons ⟨le_rfl, hip⟩ hokr ?_
              intro s hs
              simp at hs
              subst hs
              exact h1'
            · intro s hs
              simp at hs
              subst hs
              exact hprev
          · intro x
            cases hpx : prev.contains x <;> cases hrx : inRanges rest x <;>
              simp [hpx, hrx] <;> omega
          · intro r' h'
            rcases List.mem_cons.mp h' with rfl | h'
            · exact ⟨Or.inr ⟨r', by simp, Or.inl rfl⟩, Or.inr ⟨r', by simp, Or.inr rfl⟩⟩
            rcases List.mem_cons.mp h' with rfl | h'
            · exact ⟨Or.inl rfl, Or.inl rfl⟩
            · exact ⟨Or.inr ⟨r', by simp [h'], Or.inl rfl⟩, Or.inr ⟨r', by simp [h'], Or.inr rfl⟩⟩
      · by_cases h2 : Minus r.first ip = 1
        · -- low-side extension of r; the merge with prev never fires because
          -- the scan only reaches r with ip > prev.last + 1
          have h2' : r.first = ip + 1 := Minus_eq_one.mp h2
          have hmerge : tryMerge prev ⟨ip, r.last⟩ = [prev, ⟨ip, r.last⟩] := by
            rw [tryMerge, if_neg]
            simp only [Minus]
            omega
          have hres0 : insertLoop ip prev (r :: rest) = some (prev :: ⟨ip, r.last⟩ :: rest) := by
            simp [insertLoop, hc, h1, h2, hmerge]
          have hninr : inRanges (r :: rest) ip = false := by
            refine inRanges_eq_false ?_
            intro s hs
            rcases List.mem_cons.mp hs with rfl | hs
            · omega
            · have := hrestgap s hs
              have := hwfr.1
              omega
          constructor
          · simp [hres0, hninr]
          · intro rs' hres
            rw [hres0] at hres
            injection hres with hres
            subst hres
            refine ⟨?_, ?_, ?_⟩
            · refine rangesOK_cons hwfprev ?_ ?_
              · refine rangesOK_cons ⟨show ip ≤ r.last by omega, hwfr.2⟩ (rangesOK_tail hokr) ?_
                intro s hs
                have hs' : s ∈ rest := List.mem_of_mem_head? hs
                exact hrestgap s hs'
              · intro s hs
                simp at hs
                subst hs
                exact hprev
            · intro x
              cases hpx : prev.contains x <;> cases hrx : inRanges rest x <;>
                simp [hpx, hrx, h2'] <;> omega
            · intro r' h'
              rcases List.mem_cons.mp h' with rfl | h'
              · exact ⟨Or.inr ⟨r', by simp, Or.inl rfl⟩, Or.inr ⟨r', by simp, Or.inr rfl⟩⟩
              rcases List.mem_cons.mp h' with rfl | h'
              · exact ⟨Or.inl rfl, Or.inr ⟨r, by simp, Or.inr rfl⟩⟩
              · exact ⟨Or.inr ⟨r', by simp [h'], Or.inl rfl⟩, Or.inr ⟨r', by simp [h'], Or.inr rfl⟩⟩
        · by_cases h3 : Minus r.last ip = -1
          · -- high-side extension of r, then merge with the next range when
            -- it has become adjacent
            have h3' : ip = r.last + 1 := Minus_eq_neg_one.mp h3
            cases rest with
            | nil =>
              have hres0 : insertLoop ip prev [r] = some [prev, ⟨r.first, ip⟩] := by
                simp [insertLoop, hc, h1, h2, h3]
              have hninr : inRanges [r] ip = false := by
                refine inRanges_eq_false ?_
                intro s hs
                simp at hs
                subst hs
                omega
              constructor
              · simp [hres0, hninr]
              · intro rs' hres
                rw [hres0] at hres
                injection hres with hres
                subst hres
                refine ⟨?_, ?_, ?_⟩
                · refine rangesOK_cons hwfprev
                    (rangesOK_singleton ⟨show r.first ≤ ip by omega, show ip < 2 ^ 32 from hip⟩) ?_
                  intro s hs
                  simp at hs
                  subst hs
                  exact hgap
                · intro x
                  cases hpx : prev.contains x <;> simp [hpx] <;> omega
                · intro r' h'
                  rcases List.mem_cons.mp h' with rfl | h'
                  · exact ⟨Or.inr ⟨r', by simp, Or.inl rfl⟩, Or.inr ⟨r', by simp, Or.inr rfl⟩⟩
                  · simp at h'
                    subst h'
                    exact ⟨Or.inr ⟨r, by simp, Or.inl rfl⟩, Or.inl rfl⟩
            | cons r2 rest2 =>
              have hwfr2 : rangeWF r2 := hrestwf r2 (by simp)
              have hwfr21 : r2.first ≤ r2.last := hwfr2.1
              have hwfr2b : r2.last < 2 ^ 32 := hwfr2.2
              have hgap2 : r.last + 1 < r2.first := hrestgap r2 (by simp)
              have hrest2gap : ∀ s ∈ rest2, r2.last + 1 < s.first :=
                rangesOK_head_gap (rangesOK_tail hokr)
              have hninr : inRanges (r :: r2 :: rest2) ip = false := by
                refine inRanges_eq_false ?_
                intro s hs
                rcases List.mem_cons.mp hs with rfl | hs
                · omega
                rcases List.mem_cons.mp hs with rfl | hs
                · omega
                · have h4 := hrest2gap s hs
                  have h5 := hwfr2.1
                  omega
              by_cases h4 : Minus r2.first ip = 1
              · -- the extended range has become adjacent to r2: merge
                have h4' : r2.first = ip + 1 := Minus_eq_one.mp h4
                have hmerge : tryMerge ⟨r.first, ip⟩ r2 = [⟨r.first, r2.last⟩] := by
                  rw [tryMerge, if_pos]
                  simpa [Minus] using h4
                have hres0 : insertLoop ip prev (r :: r2 :: rest2) =
                    some (prev :: ⟨r.first, r2.last⟩ :: rest2) := by
                  simp [insertLoop, hc, h1, h2, h3, hmerge]
                constructor
                · simp [hres0, hninr]
                · intro rs' hres
                  rw [hres0] at hres
                  injection hres with hres
                  subst hres
                  refine ⟨?_, ?_, ?_⟩
                  · refine rangesOK_cons hwfprev ?_ ?_
                    · refine rangesOK_cons ⟨show r.first ≤ r2.last by omega, hwfr2.2⟩
                        (rangesOK_tail (rangesOK_tail hokr)) ?_
                      intro s hs
                      have hs' : s ∈ rest2 := List.mem_of_mem_head? hs
                      exact hrest2gap s hs'
                    · intro s hs
                      simp at hs
                      subst hs
                      exact hgap
                  · intro x
                    cases hpx : prev.contains x <;> cases hrx : inRanges rest2 x <;>
                      simp [hpx, hrx] <;> omega
                  · intro r' h'
                    rcases List.mem_cons.mp h' with rfl | h'
                    · exact ⟨Or.inr ⟨r', by simp, Or.inl rfl⟩, Or.inr ⟨r', by simp, Or.inr rfl⟩⟩
                    rcases List.mem_cons.mp h' with rfl | h'
                    · exact ⟨Or.inr ⟨r, by simp, Or.inl rfl⟩, Or.inr ⟨r2, by simp, Or.inr rfl⟩⟩
                    · exact ⟨Or.inr ⟨r', by simp [h'], Or.inl rfl⟩,
                             Or.inr ⟨r', by simp [h'], Or.inr rfl⟩⟩
              · -- not adjacent to r2: keep the extended range
                have hmerge : tryMerge ⟨r.first, ip⟩ r2 = [⟨r.first, ip⟩, r2] := by
                  rw [tryMerge, if_neg]
                  simpa [Minus] using h4
                have hres0 : insertLoop ip prev (r :: r2 :: rest2) =
                    some (prev :: ⟨r.first, ip⟩ :: r2 :: rest2) := by
                  simp [insertLoop, hc, h1, h2, h3, hmerge]
                have h4' : r2.first ≠ ip + 1 := by
                  intro hcontra
                  exact h4 (Minus_eq_one.mpr hcontra)
                constructor
                · simp [hres0, hninr]
                · intro rs' hres
                  rw [hres0] at hres
                  injection hres with hres
                  subst hres
                  refine ⟨?_, ?_, ?_⟩
                  · refine rangesOK_cons hwfprev ?_ ?_
                    · refine rangesOK_cons ⟨show r.first ≤ ip by omega, show ip < 2 ^ 32 from hip⟩
                        (rangesOK_tail hokr) ?_
                      intro s hs
                      simp at hs
                      subst hs
                      show (⟨r.first, ip⟩ : IPRange).last + 1 < r2.first
                      simp
                      omega
                    · intro s hs
                      simp at hs
                      subst hs
                      exact hgap
                  · intro x
                    cases hpx : prev.contains x <;> cases hrx : inRanges rest2 x <;>
                      simp [hpx, hrx] <;> omega
                  · intro r' h'
                    rcases List.mem_cons.mp h' with rfl | h'
                    · exact ⟨Or.inr ⟨r', by simp, Or.inl rfl⟩, Or.inr ⟨r', by simp, Or.inr rfl⟩⟩
                    rcases List.mem_cons.mp h' with rfl | h'
                    · exact ⟨Or.inr ⟨r, by simp, Or.inl rfl⟩, Or.inl rfl⟩
                    · exact ⟨Or.inr ⟨r', by simp [h'], Or.inl rfl⟩,
                             Or.inr ⟨r', by simp [h'], Or.inr rfl⟩⟩
          · -- no condition fires at r: the scan moves on with prev := r
            have h5 : r.last + 1 < ip := by
              simp only [Minus, gt_iff_lt] at h1 h2 h3
              omega
            have hres0 : insertLoop ip prev (r :: rest) =
                (insertLoop ip r rest).map (prev :: ·) := by
              simp [insertLoop, hc, h1, h2, h3]
            obtain ⟨ihnone, ihsome⟩ := ih r hokr h5
            constructor
            · rw [hres0]
              cases hrec : insertLoop ip r rest with
              | none =>
                simp only [Option.map_none']
                have : inRanges rest ip = true := ihnone.mp hrec
                simp [this, hc]
              | some rs'' =>
                simp only [Option.map_some']
                constructor
                · intro h
                  exact absurd h (by simp)
                · intro h
                  have : insertLoop ip r rest = none := by
                    refine ihnone.mpr ?_
                    simpa [hc] using h
                  rw [hrec] at this
                  exact absurd this (by simp)
            · intro rs' hres
              rw [hres0] at hres
              cases hrec : insertLoop ip r rest with
              | none =>
                rw [hrec] at hres
                simp at hres
              | some rs'' =>
                rw [hrec] at hres
                simp only [Option.map_some'] at hres
                injection hres with hres
                subst hres
                obtain ⟨hok'', hcov'', hend''⟩ := ihsome rs'' hrec
                have hlow : ∀ r' ∈ rs'', prev.last + 1 < r'.first := by
                  refine endpointsFrom_lower hend'' ?_ ?_ hprev
                  · intro s hs
                    rcases List.mem_cons.mp hs with rfl | hs
                    · exact hgap
                    · have := hrestgap s hs
                      omega
                  · exact fun s hs => hokr.1 s hs
                refine ⟨?_, ?_, ?_⟩
                · refine rangesOK_cons hwfprev hok'' ?_
                  intro s hs
                  exact hlow s (List.mem_of_mem_head? hs)
                · intro x
                  have := hcov'' x
                  cases hpx : prev.contains x <;> simp [hpx] at this ⊢ <;> tauto
                · intro r' h'
                  rcases List.mem_cons.mp h' with rfl | h'
                  · exact ⟨Or.inr ⟨r', by simp, Or.inl rfl⟩, Or.inr ⟨r', by simp, Or.inr rfl⟩⟩
                  · exact endpointsFrom_mono hend''
                      (fun t ht => List.mem_cons_of_mem _ ht) r' h'

theorem insertRanges_spec (ip : Nat) (hip : ip < 2 ^ 32) (rs : List IPRange)
    (hok : rangesOK rs) :
    (insertRanges ip rs = none ↔ inRanges rs ip = true) ∧
    ∀ rs', insertRanges ip rs = some rs' →
      rangesOK rs' ∧
      (∀ x, inRanges rs' x = true ↔ (inRanges rs x = true ∨ x = ip)) ∧
      endpointsFrom rs' rs ip := by
  cases rs with
  | nil =>
    constructor
    · simp [insertRanges]
    · intro rs' hres
      have hrs' : rs' = [⟨ip, ip⟩] := by
        simpa [insertRanges] using hres.symm
      subst hrs'
      refine ⟨rangesOK_singleton ⟨le_rfl, hip⟩, ?_, ?_⟩
      · intro x
        simp
        omega
      · intro r' h'
        simp at h'
        subst h'
        exact ⟨Or.inl rfl, Or.inl rfl⟩
  | cons r rest =>
    have hwfr : rangeWF r := rangesOK_head_wf hok
    have hwfr1 : r.first ≤ r.last := hwfr.1
    have hwfrb : r.last < 2 ^ 32 := hwfr.2
    have hrestgap : ∀ s ∈ rest, r.last + 1 < s.first := rangesOK_head_gap hok
    have hrestwf : ∀ s ∈ rest, rangeWF s := fun s hs => hok.1 s (List.mem_cons_of_mem _ hs)
    by_cases hc : r.contains ip = true
    · constructor
      · simp [insertRanges, hc]
      · intro rs' hres
        simp [insertRanges, hc] at hres
    · have hcn : ¬ (r.first ≤ ip ∧ ip ≤ r.last) := by
        simpa using hc
      by_cases h1 : Minus r.first ip > 1
      · have h1' : ip + 1 < r.first := Minus_gt_one.mp h1
        have hres0 : insertRanges ip (r :: rest) = some (⟨ip, ip⟩ :: r :: rest) := by
          simp [insertRanges, hc, h1]
        have hninr : inRanges (r :: rest) ip = false := by
          refine inRanges_eq_false ?_
          intro s hs
          rcases List.mem_cons.mp hs with rfl | hs
          · omega
          · have := hrestgap s hs
            omega
        constructor
        · simp [hres0, hninr]
        · intro rs' hres
          rw [hres0] at hres
          injection hres with hres
          subst hres
          refine ⟨?_, ?_, ?_⟩
          · refine rangesOK_cons ⟨le_rfl, hip⟩ hok ?_
            intro s hs
            simp at hs
            subst hs
            exact h1'
          · intro x
            cases hrx : inRanges rest x <;> simp [hrx] <;> omega
          · intro r' h'
            rcases List.mem_cons.mp h' with rfl | h'
            · exact ⟨Or.inl rfl, Or.inl rfl⟩
            · exact ⟨Or.inr ⟨r', h', Or.inl rfl⟩, Or.inr ⟨r', h', Or.inr rfl⟩⟩
      · by_cases h2 : Minus r.first ip = 1
        · -- low-side extension at index 0: tryMerge(-1) is a no-op
          have h2' : r.first = ip + 1 := Minus_eq_one.mp h2
          have hres0 : insertRanges ip (r :: rest) = some (⟨ip, r.last⟩ :: rest) := by
            simp [insertRanges, hc, h1, h2]
          have hninr : inRanges (r :: rest) ip = false := by
            refine inRanges_eq_false ?_
            intro s hs
            rcases List.mem_cons.mp hs with rfl | hs
            · omega
            · have := hrestgap s hs
              omega
          constructor
          · simp [hres0, hninr]
          · intro rs' hres
            rw [hres0] at hres
            injection hres with hres
            subst hres
            refine ⟨?_, ?_, ?_⟩
            · refine rangesOK_cons ⟨show ip ≤ r.last by omega, hwfrb⟩ (rangesOK_tail hok) ?_
              intro s hs
              exact hrestgap s (List.mem_of_mem_head? hs)
            · intro x
              cases hrx : inRanges rest x <;> simp [hrx, h2'] <;> omega
            · intro r' h'
              rcases List.mem_cons.mp h' with rfl | h'
              · exact ⟨Or.inl rfl, Or.inr ⟨r, by simp, Or.inr rfl⟩⟩
              · exact ⟨Or.inr ⟨r', List.mem_cons_of_mem _ h', Or.inl rfl⟩,
                       Or.inr ⟨r', List.mem_cons_of_mem _ h', Or.inr rfl⟩⟩
        · by_cases h3 : Minus r.last ip = -1
          · have h3' : ip = r.last + 1 := Minus_eq_neg_one.mp h3
            cases rest with
            | nil =>
              have hres0 : insertRanges ip [r] = some [⟨r.first, ip⟩] := by
                simp [insertRanges, hc, h1, h2, h3]
              have hninr : inRanges [r] ip = false := by
                refine inRanges_eq_false ?_
                intro s hs
                simp at hs
                subst hs
                omega
              constructor
              · simp [hres0, hninr]
              · intro rs' hres
                rw [hres0] at hres
                injection hres with hres
                subst hres
                refine ⟨rangesOK_singleton ⟨show r.first ≤ ip by omega, hip⟩, ?_, ?_⟩
                · intro x
                  simp <;> omega
                · intro r' h'
                  simp at h'
                  subst h'
                  exact ⟨Or.inr ⟨r, by simp, Or.inl rfl⟩, Or.inl rfl⟩
            | cons r2 rest2 =>
              have hwfr2 : rangeWF r2 := hrestwf r2 (by simp)
              have hwfr21 : r2.first ≤ r2.last := hwfr2.1
              have hwfr2b : r2.last < 2 ^ 32 := hwfr2.2
              have hgap2 : r.last + 1 < r2.first := hrestgap r2 (by simp)
              have hrest2gap : ∀ s ∈ rest2, r2.last + 1 < s.first :=
                rangesOK_head_gap (rangesOK_tail hok)
              have hninr : inRanges (r :: r2 :: rest2) ip = false := by
                refine inRanges_eq_false ?_
                intro s hs
                rcases List.mem_cons.mp hs with rfl | hs
                · omega
                rcases List.mem_cons.mp hs with rfl | hs
                · omega
                · have := hrest2gap s hs
                  omega
              by_cases h4 : Minus r2.first ip = 1
              · have h4' : r2.first = ip + 1 := Minus_eq_one.mp h4
                have hmerge : tryMerge ⟨r.first, ip⟩ r2 = [⟨r.first, r2.last⟩] := by
                  rw [tryMerge, if_pos]
                  simpa [Minus] using h4
                have hres0 : insertRanges ip (r :: r2 :: rest2) =
                    some (⟨r.first, r2.last⟩ :: rest2) := by
                  simp [insertRanges, hc, h1, h2, h3, hmerge]
                constructor
                · simp [hres0, hninr]
                · intro rs' hres
                  rw [hres0] at hres
                  injection hres with hres
                  subst hres
                  refine ⟨?_, ?_, ?_⟩
                  · refine rangesOK_cons ⟨show r.first ≤ r2.last by omega, hwfr2b⟩
                      (rangesOK_tail (rangesOK_tail hok)) ?_
                    intro s hs
                    exact hrest2gap s (List.mem_of_mem_head? hs)
                  · intro x
                    cases hrx : inRanges rest2 x <;> simp [hrx] <;> omega
                  · intro r' h'
                    rcases List.mem_cons.mp h' with rfl | h'
                    · exact ⟨Or.inr ⟨r, by simp, Or.inl rfl⟩,
                             Or.inr ⟨r2, by simp, Or.inr rfl⟩⟩
                    · exact ⟨Or.inr ⟨r', by simp [h'], Or.inl rfl⟩,
                             Or.inr ⟨r', by simp [h'], Or.inr rfl⟩⟩
              · have hmerge : tryMerge ⟨r.first, ip⟩ r2 = [⟨r.first, ip⟩, r2] := by
                  rw [tryMerge, if_neg]
                  simpa [Minus] using h4
                have hres0 : insertRanges ip (r :: r2 :: rest2) =
                    some (⟨r.first, ip⟩ :: r2 :: rest2) := by
                  simp [insertRanges, hc, h1, h2, h3, hmerge]
                have h4' : r2.first ≠ ip + 1 := by
                  intro hcontra
                  exact h4 (Minus_eq_one.mpr hcontra)
                constructor
                · simp [hres0, hninr]
                · intro rs' hres
                  rw [hres0] at hres
                  injection hres with hres
                  subst hres
                  refine ⟨?_, ?_, ?_⟩
                  · refine rangesOK_cons ⟨show r.first ≤ ip by omega, hip⟩
                      (rangesOK_tail hok) ?_
                    intro s hs
                    simp at hs
                    subst hs
                    show (⟨r.first, ip⟩ : IPRange).last + 1 < r2.first
                    simp
                    omega
                  · intro x
                    cases hrx : inRanges rest2 x <;> simp [hrx] <;> omega
                  · intro r' h'
                    rcases List.mem_cons.mp h' with rfl | h'
                    · exact ⟨Or.inr ⟨r, by simp, Or.inl rfl⟩, Or.inl rfl⟩
                    rcases List.mem_cons.mp h' with rfl | h'
                    · exact ⟨Or.inr ⟨r', by simp, Or.inl rfl⟩,
                             Or.inr ⟨r', by simp, Or.inr rfl⟩⟩
                    · exact ⟨Or.inr ⟨r', by simp [h'], Or.inl rfl⟩,
                             Or.inr ⟨r', by simp [h'], Or.inr rfl⟩⟩
          · -- the scan moves on with prev := r
            have h5 : r.last + 1 < ip := by
              simp only [Minus, gt_iff_lt] at h1 h2 h3
              omega
            have hres0 : insertRanges ip (r :: rest) = insertLoop ip r rest := by
              simp [insertRanges, hc, h1, h2, h3]
            obtain ⟨ihnone, ihsome⟩ := insertLoop_spec ip hip rest r hok h5
            constructor
            · rw [hres0, ihnone]
              simp [hc]
            · intro rs' hres
              rw [hres0] at hres
              obtain ⟨hok'', hcov'', hend''⟩ := ihsome rs' hres
              exact ⟨hok'', hcov'', hend''⟩

theorem removeRanges_spec (ip : Nat) (hip : ip < 2 ^ 32) :
    ∀ rs, rangesOK rs →
      (removeRanges ip rs = none ↔ inRanges rs ip = false) ∧
      ∀ rs', removeRanges ip rs = some rs' →
        rangesOK rs' ∧
        (∀ x, inRanges rs' x = true ↔ (inRanges rs x = true ∧ x ≠ ip)) ∧
        (∀ r' ∈ rs', ∃ r, r ∈ rs ∧ r.first ≤ r'.first ∧ r'.last ≤ r.last) := by
  intro rs
  induction rs with
  | nil =>
    intro hok
    constructor
    · simp [removeRanges]
    · intro rs' hres
      simp [removeRanges] at hres
  | cons r rest ih =>
    intro hok
    have hwfr : rangeWF r := rangesOK_head_wf hok
    have hwfr1 : r.first ≤ r.last := hwfr.1
    have hwfrb : r.last < 2 ^ 32 := hwfr.2
    have hrestgap : ∀ s ∈ rest, r.last + 1 < s.first := rangesOK_head_gap hok
    have hrestwf : ∀ s ∈ rest, rangeWF s := fun s hs => hok.1 s (List.mem_cons_of_mem _ hs)
    have hoktail : rangesOK rest := rangesOK_tail hok
    by_cases hc : r.contains ip = true
    · have hcn : r.first ≤ ip ∧ ip ≤ r.last := by simpa using hc
      have hrest_ip : inRanges rest ip = false := by
        refine inRanges_eq_false ?_
        intro s hs
        have := hrestgap s hs
        omega
      by_cases e1 : r.first = r.last
      · -- singleton range: delete it
        have hres0 : removeRanges ip (r :: rest) = some rest := by
          simp [removeRanges, hc, e1]
        have hrip : r.first = ip ∧ r.last = ip := by omega
        constructor
        · simp [hres0, hc]
        · intro rs' hres
          rw [hres0] at hres
          injection hres with hres
          subst hres
          refine ⟨hoktail, ?_, ?_⟩
          · intro x
            by_cases hxip : x = ip
            · subst hxip
              simp [hrest_ip]
            · cases hrx : inRanges rest x <;> simp [hrx, hxip] <;> omega
          · intro r' h'
            exact ⟨r', List.mem_cons_of_mem _ h', le_rfl, le_rfl⟩
      · by_cases e2 : r.first = ip
        · -- shrink at First
          have hlt : r.first < r.last := by omega
          have hlast2 : ¬ ip = r.last := by omega
          have hres0 : removeRanges ip (r :: rest) =
              some (⟨ip + 1, r.last⟩ :: rest) := by
            simp [removeRanges, hc, e1, e2, hlast2,
              u32succ_eq (show ip + 1 < 2 ^ 32 by omega)]
          constructor
          · simp [hres0, hc]
          · intro rs' hres
            rw [hres0] at hres
            injection hres with hres
            subst hres
            refine ⟨?_, ?_, ?_⟩
            · refine rangesOK_cons ⟨show ip + 1 ≤ r.last by omega, hwfrb⟩ hoktail ?_
              intro s hs
              have := hrestgap s (List.mem_of_mem_head? hs)
              show (⟨ip + 1, r.last⟩ : IPRange).last + 1 < s.first
              simpa using this
            · intro x
              by_cases hxip : x = ip
              · subst hxip
                simp [hrest_ip] <;> omega
              · cases hrx : inRanges rest x <;> simp [hrx, hxip] <;> omega
            · intro r' h'
              rcases List.mem_cons.mp h' with rfl | h'
              · exact ⟨r, List.mem_cons_self _ _, by simp; omega, by simp⟩
              · exact ⟨r', List.mem_cons_of_mem _ h', le_rfl, le_rfl⟩
        · by_cases e3 : r.last = ip
          · -- shrink at Last
            have hlt : r.first < r.last := by omega
            have hres0 : removeRanges ip (r :: rest) =
                some (⟨r.first, ip - 1⟩ :: rest) := by
              simp [removeRanges, hc, e1, e2, e3,
                u32pred_eq (show 0 < ip by omega) hip]
            constructor
            · simp [hres0, hc]
            · intro rs' hres
              rw [hres0] at hres
              injection hres with hres
              subst hres
              refine ⟨?_, ?_, ?_⟩
              · refine rangesOK_cons
                  ⟨show r.first ≤ ip - 1 by omega, show ip - 1 < 2 ^ 32 by omega⟩ hoktail ?_
                intro s hs
                have := hrestgap s (List.mem_of_mem_head? hs)
                show (⟨r.first, ip - 1⟩ : IPRange).last + 1 < s.first
                simp
                omega
              · intro x
                by_cases hxip : x = ip
                · subst hxip
                  simp [hrest_ip] <;> omega
                · cases hrx : inRanges rest x <;> simp [hrx, hxip] <;> omega
              · intro r' h'
                rcases List.mem_cons.mp h' with rfl | h'
                · exact ⟨r, List.mem_cons_self _ _, by simp, by simp; omega⟩
                · exact ⟨r', List.mem_cons_of_mem _ h', le_rfl, le_rfl⟩
          · -- interior: split in two
            have hlt1 : r.first < ip := by omega
            have hlt2 : ip < r.last := by omega
            have hres0 : removeRanges ip (r :: rest) =
                some (⟨r.first, ip - 1⟩ :: ⟨ip + 1, r.last⟩ :: rest) := by
              simp [removeRanges, hc, e1, e2, e3,
                u32pred_eq (show 0 < ip by omega) hip,
                u32succ_eq (show ip + 1 < 2 ^ 32 by omega)]
            constructor
            · simp [hres0, hc]
            · intro rs' hres
              rw [hres0] at hres
              injection hres with hres
              subst hres
              refine ⟨?_, ?_, ?_⟩
              · refine rangesOK_cons
                  ⟨show r.first ≤ ip - 1 by omega, show ip - 1 < 2 ^ 32 by omega⟩ ?_ ?_
                · refine rangesOK_cons ⟨show ip + 1 ≤ r.last by omega, hwfrb⟩ hoktail ?_
                  intro s hs
                  have := hrestgap s (List.mem_of_mem_head? hs)
                  show (⟨ip + 1, r.last⟩ : IPRange).last + 1 < s.first
                  simpa using this
                · intro s hs
                  simp at hs
                  subst hs
                  show (⟨r.first, ip - 1⟩ : IPRange).last + 1 < (⟨ip + 1, r.last⟩ : IPRange).first
                  simp
                  omega
              · intro x
                by_cases hxip : x = ip
                · subst hxip
                  simp [hrest_ip] <;> omega
                · cases hrx : inRanges rest x <;> simp [hrx, hxip] <;> omega
              · intro r' h'
                rcases List.mem_cons.mp h' with rfl | h'
                · exact ⟨r, List.mem_cons_self _ _, by simp, by simp; omega⟩
                rcases List.mem_cons.mp h' with rfl | h'
                · exact ⟨r, List.mem_cons_self _ _, by simp; omega, by simp⟩
                · exact ⟨r', List.mem_cons_of_mem _ h', le_rfl, le_rfl⟩
    · -- r does not contain ip: the scan moves on
      have hne : ∀ x, r.contains x = true → x ≠ ip := by
        intro x hx hxe
        subst hxe
        rw [hx] at hc
        exact hc rfl
      obtain ⟨ihnone, ihsome⟩ := ih hoktail
      have hres0 : removeRanges ip (r :: rest) = (removeRanges ip rest).map (r :: ·) := by
        simp [removeRanges, hc]
      constructor
      · rw [hres0]
        cases hrec : removeRanges ip rest with
        | none =>
          simp only [Option.map_none']
          have := ihnone.mp hrec
          simp [this, hc]
        | some rs'' =>
          simp only [Option.map_some']
          constructor
          · intro h
            exact absurd h (by simp)
          · intro h
            have h2 : inRanges rest ip = false := by
              simpa [hc] using h
            have := ihnone.mpr h2
            rw [hrec] at this
            exact absurd this (by simp)
      · intro rs' hres
        rw [hres0] at hres
        cases hrec : removeRanges ip rest with
        | none =>
          rw [hrec] at hres
          simp at hres
        | some rs'' =>
          rw [hrec] at hres
          simp only [Option.map_some'] at hres
          injection hres with hres
          subst hres
          obtain ⟨hok'', hcov'', hnest''⟩ := ihsome rs'' hrec
          refine ⟨?_, ?_, ?_⟩
          · refine rangesOK_cons hwfr hok'' ?_
            intro s hs
            obtain ⟨t, ht, htf, _⟩ := hnest'' s (List.mem_of_mem_head? hs)
            have := hrestgap t ht
            show r.last + 1 < s.first
            omega
          · intro x
            constructor
            · intro hx
              rcases (by simpa using hx : r.contains x = true ∨ inRanges rs'' x = true) with
                hx | hx
              · exact ⟨by simp [hx], hne x hx⟩
              · obtain ⟨hrx, hxne⟩ := (hcov'' x).mp hx
                exact ⟨by simp [hrx], hxne⟩
            · rintro ⟨hx, hxne⟩
              rcases (by simpa using hx : r.contains x = true ∨ inRanges rest x = true) with
                hx | hx
              · simp [hx]
              · have := (hcov'' x).mpr ⟨hx, hxne⟩
                simp [this]
          · intro r' h'
            rcases List.mem_cons.mp h' with rfl | h'
            · exact ⟨r', List.mem_cons_self _ _, le_rfl, le_rfl⟩
            · obtain ⟨t, ht, h1, h2⟩ := hnest'' r' h'
              exact ⟨t, List.mem_cons_of_mem _ ht, h1, h2⟩

/-- A covered address is a 32-bit value, because range ends are. -/
lemma lt_of_covered {rs : List IPRange} {a : Nat} (hok : rangesOK rs)
    (hcov : inRanges rs a = true) : a < 2 ^ 32 := by
  simp only [inRanges, List.any_eq_true] at hcov
  obtain ⟨r, hr, hc⟩ := hcov
  have h1 := (hok.1 r hr).2
  have h2 : r.first ≤ a ∧ a ≤ r.last := by simpa using hc
  omega

lemma insertIP_out {p : FloatingIPPool} {a : Nat} (h : p.subnetContains a = false) :
    p.insertIP a = (false, p) := by
  simp [FloatingIPPool.insertIP, h]

lemma insertIP_covered {p : FloatingIPPool} {a : Nat} (hok : rangesOK p.ipRanges)
    (hcov : inRanges p.ipRanges a = true) : p.insertIP a = (false, p) := by
  have hip : a < 2 ^ 32 := lt_of_covered hok hcov
  by_cases hsub : p.subnetContains a = true
  · have hne : ¬ p.ipRanges.isEmpty := by
      cases hrs : p.ipRanges with
      | nil => rw [hrs] at hcov; simp at hcov
      | cons r rest => simp [hrs]
    have hnone : insertRanges a p.ipRanges = none :=
      (insertRanges_spec a hip p.ipRanges hok).1.mpr hcov
    simp [FloatingIPPool.insertIP, hsub, hne, hnone]
  · simp [FloatingIPPool.insertIP, hsub]

lemma insertIP_ok {p : FloatingIPPool} {a : Nat} (hok : rangesOK p.ipRanges)
    (hsub : p.subnetContains a = true) (hcov : inRanges p.ipRanges a = false)
    (hip : a < 2 ^ 32) :
    ∃ rs', p.insertIP a = (true, { p with ipRanges := rs' }) ∧
      rangesOK rs' ∧
      (∀ x, inRanges rs' x = true ↔ (inRanges p.ipRanges x = true ∨ x = a)) ∧
      endpointsFrom rs' p.ipRanges a := by
  by_cases hemp : p.ipRanges.isEmpty
  · have hnil : p.ipRanges = [] := List.isEmpty_iff.mp hemp
    refine ⟨[⟨a, a⟩], ?_, rangesOK_singleton ⟨le_rfl, hip⟩, ?_, ?_⟩
    · simp [FloatingIPPool.insertIP, hsub, hemp, hnil]
    · intro x
      rw [hnil]
      simp
      omega
    · intro r' h'
      simp at h'
      subst h'
      exact ⟨Or.inl rfl, Or.inl rfl⟩
  · obtain ⟨hiff, hsome⟩ := insertRanges_spec a hip p.ipRanges hok
    cases hres : insertRanges a p.ipRanges with
    | none =>
      rw [hiff.mp hres] at hcov
      simp at hcov
    | some rs' =>
      obtain ⟨hok', hcov', hend'⟩ := hsome rs' hres
      refine ⟨rs', ?_, hok', hcov', hend'⟩
      simp [FloatingIPPool.insertIP, hsub, hemp, hres]

lemma removeIP_out {p : FloatingIPPool} {a : Nat} (h : p.subnetContains a = false) :
    p.removeIP a = (false, p) := by
  simp [FloatingIPPool.removeIP, h]

/-- Falling off the removal loop is exactly the absence of a containing
range, with no side conditions. -/
lemma removeRanges_none_iff (ip : Nat) :
    ∀ rs, removeRanges ip rs = none ↔ inRanges rs ip = false
  | [] => by simp [removeRanges]
  | r :: rest => by
    by_cases hc : r.contains ip = true
    · simp [removeRanges, hc]
    · have ih := removeRanges_none_iff ip rest
      rw [show removeRanges ip (r :: rest) = (removeRanges ip rest).map (r :: ·) by
        simp [removeRanges, hc]]
      simp [Option.map_eq_none', hc, ih]

lemma removeIP_not_covered {p : FloatingIPPool} {a : Nat}
    (hcov : inRanges p.ipRanges a = false) : p.removeIP a = (false, p) := by
  by_cases hsub : p.subnetContains a = true
  · by_cases hemp : p.ipRanges.isEmpty
    · simp [FloatingIPPool.removeIP, hsub, hemp]
    · have hnone : removeRanges a p.ipRanges = none :=
        (removeRanges_none_iff a p.ipRanges).mpr hcov
      simp [FloatingIPPool.removeIP, hsub, hemp, hnone]
  · simp [FloatingIPPool.removeIP, hsub]

lemma removeIP_ok {p : FloatingIPPool} {a : Nat} (hok : rangesOK p.ipRanges)
    (hsub : p.subnetContains a = true) (hcov : inRanges p.ipRanges a = true) :
    ∃ rs', p.removeIP a = (true, { p with ipRanges := rs' }) ∧
      rangesOK rs' ∧
      (∀ x, inRanges rs' x = true ↔ (inRanges p.ipRanges x = true ∧ x ≠ a)) ∧
      (∀ r' ∈ rs', ∃ r, r ∈ p.ipRanges ∧ r.first ≤ r'.first ∧ r'.last ≤ r.last) := by
  have hip : a < 2 ^ 32 := lt_of_covered hok hcov
  have hemp : ¬ p.ipRanges.isEmpty := by
    cases hrs : p.ipRanges with
    | nil => rw [hrs] at hcov; simp at hcov
    | cons r rest => simp [hrs]
  obtain ⟨hiff, hsome⟩ := removeRanges_spec a hip p.ipRanges hok
  cases hres : removeRanges a p.ipRanges with
  | none =>
    rw [hiff.mp hres] at hcov
    simp at hcov
  | some rs' =>
    obtain ⟨hok', hcov', hnest'⟩ := hsome rs' hres
    refine ⟨rs', ?_, hok', hcov', hnest'⟩
    simp [FloatingIPPool.removeIP, hsub, hemp, hres]

/-- Destructor for coverage: a covered address has a containing range. -/
lemma inRanges_destruct {rs : List IPRange} {x : Nat} (h : inRanges rs x = true) :
    ∃ s ∈ rs, s.first ≤ x ∧ x ≤ s.last := by
  simp only [inRanges, List.any_eq_true] at h
  obtain ⟨s, hs, hc⟩ := h
  exact ⟨s, hs, by simpa using hc⟩

lemma inRanges_of_mem {rs : List IPRange} {s : IPRange} {x : Nat} (hs : s ∈ rs)
    (h1 : s.first ≤ x) (h2 : x ≤ s.last) : inRanges rs x = true := by
  simp only [inRanges, List.any_eq_true]
  exact ⟨s, hs, by simp [h1, h2]⟩

/-- Two well-formed, sorted, gapped range lists covering the same set of
addresses are equal: the representation of an available set is canonical. -/
theorem rangesOK_unique : ∀ rs ts, rangesOK rs → rangesOK ts →
    (∀ x, inRanges rs x = true ↔ inRanges ts x = true) → rs = ts := by
  intro rs
  induction rs with
  | nil =>
    intro ts hok hokt hcov
    cases ts with
    | nil => rfl
    | cons t ts' =>
      exfalso
      have hwt := rangesOK_head_wf hokt
      have h0 := (hcov t.first).mpr
        (inRanges_of_mem (List.mem_cons_self _ _) le_rfl hwt.1)
      simp at h0
  | cons r rs' ih =>
    intro ts hok hokt hcov
    cases ts with
    | nil =>
      exfalso
      have hwr := rangesOK_head_wf hok
      have h0 := (hcov r.first).mp
        (inRanges_of_mem (List.mem_cons_self _ _) le_rfl hwr.1)
      simp at h0
    | cons t ts' =>
      have hwr := rangesOK_head_wf hok
      have hwt := rangesOK_head_wf hokt
      have hwr1 := hwr.1
      have hwt1 := hwt.1
      have hgr : ∀ s ∈ rs', r.last + 1 < s.first := rangesOK_head_gap hok
      have hgt : ∀ s ∈ ts', t.last + 1 < s.first := rangesOK_head_gap hokt
      -- the two head firsts coincide
      have hft : t.first ≤ r.first := by
        obtain ⟨s, hs, h4, h5⟩ := inRanges_destruct ((hcov r.first).mp
          (inRanges_of_mem (List.mem_cons_self _ _) le_rfl hwr1))
        rcases List.mem_cons.mp hs with rfl | hs
        · exact h4
        · have := hgt s hs
          omega
      have hfr : r.first ≤ t.first := by
        obtain ⟨s, hs, h4, h5⟩ := inRanges_destruct ((hcov t.first).mpr
          (inRanges_of_mem (List.mem_cons_self _ _) le_rfl hwt1))
        rcases List.mem_cons.mp hs with rfl | hs
        · exact h4
        · have := hgr s hs
          omega
      have hfirst : r.first = t.first := le_antisymm hfr hft
      -- the two head lasts coincide
      have hlast : r.last = t.last := by
        by_contra hne
        rcases Nat.lt_or_ge r.last t.last with hlt | hge
        · obtain ⟨s, hs, h4, h5⟩ := inRanges_destruct ((hcov (r.last + 1)).mpr
            (inRanges_of_mem (List.mem_cons_self _ _) (by omega) (by omega)))
          rcases List.mem_cons.mp hs with rfl | hs
          · omega
          · have := hgr s hs
            omega
        · have hlt : t.last < r.last := by omega
          obtain ⟨s, hs, h4, h5⟩ := inRanges_destruct ((hcov (t.last + 1)).mp
            (inRanges_of_mem (List.mem_cons_self _ _) (by omega) (by omega)))
          rcases List.mem_cons.mp hs with rfl | hs
          · omega
          · have := hgt s hs
            omega
      have hhead : r = t := by
        cases r
        cases t
        simp_all
      subst hhead
      -- the tails cover the same addresses
      have hcov' : ∀ x, inRanges rs' x = true ↔ inRanges ts' x = true := by
        intro x
        by_cases hx : x ≤ r.last
        · have h1 : inRanges rs' x = false := by
            refine inRanges_eq_false ?_
            intro s hs
            have := hgr s hs
            omega
          have h2 : inRanges ts' x = false := by
            refine inRanges_eq_false ?_
            intro s hs
            have := hgt s hs
            omega
          simp [h1, h2]
        · have h3 := hcov x
          have h4 : r.contains x = false := by
            simp [IPRange.contains]
            omega
          simp [h4] at h3
          rw [h3]
      exact congrArg _ (ih ts' (rangesOK_tail hok) (rangesOK_tail hokt) hcov')

/-- Key arithmetic fact about CIDR masks: conjunction with the high-bit block
`2^32 - 2^s` clears the low `s` bits of a 32-bit value. -/
lemma land_high_mask {s x : Nat} (hs : s ≤ 32) (hx : x < 2 ^ 32) :
    Nat.land x (2 ^ 32 - 2 ^ s) = 2 ^ s * (x / 2 ^ s) := by
  apply Nat.eq_of_testBit_eq
  intro i
  have h1 : 2 ^ 32 - 2 ^ s = 2 ^ s * (2 ^ (32 - s) - 1) := by
    rw [Nat.mul_sub, Nat.mul_one, ← pow_add]
    congr 2
    omega
  rw [show Nat.land x (2 ^ 32 - 2 ^ s) = x &&& (2 ^ 32 - 2 ^ s) from rfl]
  rw [Nat.testBit_and, h1, Nat.testBit_mul_pow_two, Nat.testBit_mul_pow_two,
    Nat.testBit_two_pow_sub_one]
  rw [← Nat.shiftRight_eq_div_pow, Nat.testBit_shiftRight]
  by_cases hi : s ≤ i
  · have h2 : s + (i - s) = i := by omega
    rw [h2]
    by_cases h32 : i < 32
    · have h3 : i - s < 32 - s := by omega
      simp [hi, h3, ge_iff_le]
    · have h3 : x.testBit i = false := by
        apply Nat.testBit_lt_two_pow
        calc x < 2 ^ 32 := hx
          _ ≤ 2 ^ i := Nat.pow_le_pow_right (by omega) (by omega)
      have h4 : ¬ (i - s < 32 - s) := by omega
      simp [hi, h3, h4, ge_iff_le]
  · simp [hi, ge_iff_le]

/-- A CIDR subnet is convex: an address lying between two members (all
32-bit) is itself a member. -/
lemma subnet_convex {g m : Nat} (hm : isCidrMask m) {u v y : Nat}
    (hu : ipNetContains g m u = true) (hv : ipNetContains g m v = true)
    (h1 : u ≤ y) (h2 : y ≤ v) (hvb : v < 2 ^ 32) :
    ipNetContains g m y = true := by
  obtain ⟨s, hs, rfl⟩ := hm
  have hub : u < 2 ^ 32 := by omega
  have hyb : y < 2 ^ 32 := by omega
  simp only [ipNetContains, decide_eq_true_eq] at hu hv ⊢
  rw [land_high_mask hs hub] at hu
  rw [land_high_mask hs hvb] at hv
  rw [land_high_mask hs hyb]
  have hpos : 0 < 2 ^ s := Nat.pos_pow_of_pos s (by omega)
  have h3 : u / 2 ^ s = v / 2 ^ s :=
    Nat.eq_of_mul_eq_mul_left hpos (hu.trans hv.symm)
  have h4 : u / 2 ^ s ≤ y / 2 ^ s := Nat.div_le_div_right h1
  have h5 : y / 2 ^ s ≤ v / 2 ^ s := Nat.div_le_div_right h2
  have h6 : y / 2 ^ s = u / 2 ^ s := by omega
  rw [h6, hu]

instance : DecidableRel gapped :=
  fun a b => inferInstanceAs (Decidable (a.last + 1 < b.first))

instance : DecidablePred rangeWF :=
  fun r => inferInstanceAs (Decidable (r.first ≤ r.last ∧ r.last < 2 ^ 32))

/-- One reserve or release call, the two mutations of the pool state. -/
inductive PoolOp where
  | ins (ip : Nat)
  | rem (ip : Nat)
deriving DecidableEq, Repr

def PoolOp.addr : PoolOp → Nat
  | .ins a => a
  | .rem a => a

def applyOp (p : FloatingIPPool) : PoolOp → FloatingIPPool
  | .ins a => (p.insertIP a).2
  | .rem a => (p.removeIP a).2

/-- A sequence of `InsertIP`/`RemoveIP` calls applied to a pool. -/
def applyOps (p : FloatingIPPool) (ops : List PoolOp) : FloatingIPPool :=
  ops.foldl applyOp p

lemma rangesOK_sortedByFirst : ∀ rs, rangesOK rs → rs.Chain' (fun a b => a.first < b.first)
  | [] => fun _ => List.chain'_nil
  | [r] => fun _ => List.chain'_singleton r
  | r :: s :: rest => fun h => by
    rw [List.chain'_cons]
    refine ⟨?_, rangesOK_sortedByFirst (s :: rest) (rangesOK_tail h)⟩
    have h1 : r.last + 1 < s.first := (List.chain'_cons'.mp h.2).1 s rfl
    have h2 := (rangesOK_head_wf h).1
    omega

lemma applyOp_preserves {p : FloatingIPPool} (hv : validPool p) (op : PoolOp)
    (hm : isCidrMask p.mask) (ha : op.addr < 2 ^ 32) :
    validPool (applyOp p op) ∧ (applyOp p op).mask = p.mask ∧
      (applyOp p op).gateway = p.gateway := by
  cases op with
  | ins a =>
    by_cases hsub : p.subnetContains a = true
    · by_cases hcov : inRanges p.ipRanges a = true
      · show validPool (p.insertIP a).2 ∧ (p.insertIP a).2.mask = p.mask ∧
            (p.insertIP a).2.gateway = p.gateway
        rw [insertIP_covered hv.1 hcov]
        exact ⟨hv, rfl, rfl⟩
      · obtain ⟨rs', heq, hok', _, hend'⟩ :=
          insertIP_ok hv.1 hsub (by simpa using hcov) ha
        show validPool (p.insertIP a).2 ∧ (p.insertIP a).2.mask = p.mask ∧
            (p.insertIP a).2.gateway = p.gateway
        rw [heq]
        refine ⟨⟨hok', ?_⟩, rfl, rfl⟩
        intro r' h'
        have hsame : ∀ x, ({ p with ipRanges := rs' } : FloatingIPPool).subnetContains x =
            p.subnetContains x := fun _ => rfl
        rw [hsame, hsame]
        obtain ⟨hf, hl⟩ := hend' r' h'
        constructor
        · rcases hf with rfl | ⟨r, hr, hf | hf⟩
          · exact hsub
          · rw [hf]; exact (hv.2 r hr).1
          · rw [hf]; exact (hv.2 r hr).2
        · rcases hl with rfl | ⟨r, hr, hl | hl⟩
          · exact hsub
          · rw [hl]; exact (hv.2 r hr).1
          · rw [hl]; exact (hv.2 r hr).2
    · show validPool (p.insertIP a).2 ∧ (p.insertIP a).2.mask = p.mask ∧
          (p.insertIP a).2.gateway = p.gateway
      rw [insertIP_out (by simpa using hsub)]
      exact ⟨hv, rfl, rfl⟩
  | rem a =>
    by_cases hsub : p.subnetContains a = true
    · by_cases hcov : inRanges p.ipRanges a = true
      · obtain ⟨rs', heq, hok', _, hnest'⟩ := removeIP_ok hv.1 hsub hcov
        show validPool (p.removeIP a).2 ∧ (p.removeIP a).2.mask = p.mask ∧
            (p.removeIP a).2.gateway = p.gateway
        rw [heq]
        refine ⟨⟨hok', ?_⟩, rfl, rfl⟩
        intro r' h'
        have hsame : ∀ x, ({ p with ipRanges := rs' } : FloatingIPPool).subnetContains x =
            p.subnetContains x := fun _ => rfl
        rw [hsame, hsame]
        obtain ⟨r, hr, h1, h2⟩ := hnest' r' h'
        have hwr := hv.1.1 r hr
        have hw' := hok'.1 r' h'
        have hwr1 := hwr.1
        have hw1 := hw'.1
        have hcf := (hv.2 r hr).1
        have hcl := (hv.2 r hr).2
        constructor
        · exact subnet_convex hm hcf hcl h1 (by omega) hwr.2
        · exact subnet_convex hm hcf hcl (by omega) h2 hwr.2
      · show validPool (p.removeIP a).2 ∧ (p.removeIP a).2.mask = p.mask ∧
            (p.removeIP a).2.gateway = p.gateway
        rw [removeIP_not_covered (by simpa using hcov)]
        exact ⟨hv, rfl, rfl⟩
    · show validPool (p.removeIP a).2 ∧ (p.removeIP a).2.mask = p.mask ∧
          (p.removeIP a).2.gateway = p.gateway
      rw [removeIP_out (by simpa using hsub)]
      exact ⟨hv, rfl, rfl⟩

lemma applyOps_preserves {p : FloatingIPPool} {ops : List PoolOp} (hv : validPool p)
    (hm : isCidrMask p.mask) (hops : ∀ op ∈ ops, op.addr < 2 ^ 32) :
    validPool (applyOps p ops) ∧ (applyOps p ops).mask = p.mask := by
  induction ops generalizing p with
  | nil => exact ⟨hv, rfl⟩
  | cons op ops ihops =>
    obtain ⟨hv', hmask', _⟩ :=
      applyOp_preserves hv op hm (hops op (List.mem_cons_self _ _))
    have hm' : isCidrMask (applyOp p op).mask := by rw [hmask']; exact hm
    obtain ⟨h1, h2⟩ := ihops hv' hm' (fun o ho => hops o (List.mem_cons_of_mem _ ho))
    exact ⟨h1, by rw [show applyOps p (op :: ops) = applyOps (applyOp p op) ops from rfl,
      h2, hmask']⟩

/-- Executable check for the I2 chain, for kernel evaluation of concrete
pools. -/
def chainGappedb : List IPRange → Bool
  | [] => true
  | [_] => true
  | a :: b :: rest => decide (a.last + 1 < b.first) && chainGappedb (b :: rest)

lemma chain'_gapped_iff : ∀ rs : List IPRange, rs.Chain' gapped ↔ chainGappedb rs = true
  | [] => by simp [chainGappedb]
  | [r] => by simp [chainGappedb]
  | a :: b :: rest => by
    rw [List.chain'_cons, chain'_gapped_iff (b :: rest)]
    simp [chainGappedb, gapped]

instance instDecRangesOK (rs : List IPRange) : Decidable (rangesOK rs) :=
  decidable_of_iff ((∀ r ∈ rs, rangeWF r) ∧ chainGappedb rs = true)
    (and_congr Iff.rfl (chain'_gapped_iff rs).symm)

instance instDecValidPool (p : FloatingIPPool) : Decidable (validPool p) :=
  inferInstanceAs (Decidable (_ ∧ _))

/-- A /24-style CIDR mask (255.255.255.0) used in concrete examples. -/
def demoMask : Nat := 4294967040

/-- A concrete pool with gateway 0.0.0.1 and mask /24, whose floating-IP
subnet is the addresses 0..255; used in concrete examples. -/
def demoPool (rs : List IPRange) : FloatingIPPool :=
  ⟨0, demoMask, 1, demoMask, 0, rs⟩

/-- C1: for every pool satisfying invariants I1 (ranges sorted strictly
ascending by `First`), I2 (no two ranges adjacent or overlapping) and I3
(every range within the Gateway/Mask subnet), with a CIDR mask and 32-bit
addresses, the pool still satisfies I1, I2 and I3 after any sequence of
`InsertIP`/`RemoveIP` calls, in particular after any single call. -/
theorem c1_invariant_preservation (p : FloatingIPPool) (ops : List PoolOp)
    (hv : validPool p) (hm : isCidrMask p.mask)
    (hops : ∀ op ∈ ops, op.addr < 2 ^ 32) :
    validPool (applyOps p ops) ∧
    (applyOps p ops).ipRanges.Chain' (fun a b => a.first < b.first) ∧
    (applyOps p ops).ipRanges.Chain' gapped := by
  obtain ⟨h1, _⟩ := applyOps_preserves hv hm hops
  exact ⟨h1, rangesOK_sortedByFirst _ h1.1, h1.1.2⟩

theorem c1_invariant_preservation_witness :
    validPool (applyOps (demoPool [⟨10, 20⟩]) [PoolOp.rem 15, PoolOp.ins 15]) ∧
    (applyOps (demoPool [⟨10, 20⟩]) [PoolOp.rem 15, PoolOp.ins 15]).ipRanges.Chain'
      (fun a b => a.first < b.first) ∧
    (applyOps (demoPool [⟨10, 20⟩]) [PoolOp.rem 15, PoolOp.ins 15]).ipRanges.Chain' gapped :=
  c1_invariant_preservation (demoPool [⟨10, 20⟩]) [PoolOp.rem 15, PoolOp.ins 15]
    (by decide) ⟨8, by decide, by decide⟩ (by decide)

/-- C2: on a valid pool, a successful `InsertIP(a)` makes the covered set
exactly the old set plus `a`, and a successful `RemoveIP(a)` makes it
exactly the old set minus `a`; no other address changes availability. -/
theorem c2_exact_set_semantics (p : FloatingIPPool) (a : Nat) (hv : validPool p)
    (ha : a < 2 ^ 32) (hsub : p.subnetContains a = true) :
    ((p.insertIP a).1 = true →
      ∀ x, inRanges (p.insertIP a).2.ipRanges x = true ↔
        (inRanges p.ipRanges x = true ∨ x = a)) ∧
    ((p.removeIP a).1 = true →
      ∀ x, inRanges (p.removeIP a).2.ipRanges x = true ↔
        (inRanges p.ipRanges x = true ∧ x ≠ a)) := by
  constructor
  · intro htrue
    by_cases hcov : inRanges p.ipRanges a = true
    · rw [insertIP_covered hv.1 hcov] at htrue
      simp at htrue
    · obtain ⟨rs', heq, _, hcov', _⟩ := insertIP_ok hv.1 hsub (by simpa using hcov) ha
      rw [heq]
      exact hcov'
  · intro htrue
    by_cases hcov : inRanges p.ipRanges a = true
    · obtain ⟨rs', heq, _, hcov', _⟩ := removeIP_ok hv.1 hsub hcov
      rw [heq]
      exact hcov'
    · rw [removeIP_not_covered (by simpa using hcov)] at htrue
      simp at htrue

theorem c2_exact_set_semantics_witness :
    (((demoPool [⟨10, 20⟩]).insertIP 30).1 = true →
      ∀ x, inRanges ((demoPool [⟨10, 20⟩]).insertIP 30).2.ipRanges x = true ↔
        (inRanges (demoPool [⟨10, 20⟩]).ipRanges x = true ∨ x = 30)) ∧
    (((demoPool [⟨10, 20⟩]).removeIP 30).1 = true →
      ∀ x, inRanges ((demoPool [⟨10, 20⟩]).removeIP 30).2.ipRanges x = true ↔
        (inRanges (demoPool [⟨10, 20⟩]).ipRanges x = true ∧ x ≠ 30)) :=
  c2_exact_set_semantics (demoPool [⟨10, 20⟩]) 30 (by decide) (by decide) (by decide)

/-- C3: `InsertIP`/`RemoveIP` return false exactly on an out-of-subnet
address, an already-covered address (insert), or an uncovered address or
empty list (remove); and whenever they return false the pool, in particular
its `IPRanges` list, is left exactly unchanged. -/
theorem c3_noop_unchanged (p : FloatingIPPool) (a : Nat) (hok : rangesOK p.ipRanges)
    (ha : a < 2 ^ 32) :
    ((p.insertIP a).1 = false ↔
      (p.subnetContains a = false ∨ inRanges p.ipRanges a = true)) ∧
    ((p.insertIP a).1 = false → (p.insertIP a).2 = p) ∧
    ((p.removeIP a).1 = false ↔
      (p.subnetContains a = false ∨ inRanges p.ipRanges a = false)) ∧
    ((p.removeIP a).1 = false → (p.removeIP a).2 = p) := by
  by_cases hsub : p.subnetContains a = true
  · by_cases hcov : inRanges p.ipRanges a = true
    · rw [insertIP_covered hok hcov]
      obtain ⟨rs', heq, _, _, _⟩ := removeIP_ok hok hsub hcov
      rw [heq]
      simp [hsub, hcov]
    · have hcovf : inRanges p.ipRanges a = false := by simpa using hcov
      obtain ⟨rs', heq, _, _, _⟩ := insertIP_ok hok hsub hcovf ha
      rw [heq, removeIP_not_covered hcovf]
      simp [hsub, hcovf]
  · have hsubf : p.subnetContains a = false := by simpa using hsub
    rw [insertIP_out hsubf, removeIP_out hsubf]
    simp [hsubf]

theorem c3_noop_unchanged_witness :
    (((demoPool [⟨10, 20⟩]).insertIP 999).1 = false ↔
      ((demoPool [⟨10, 20⟩]).subnetContains 999 = false ∨
        inRanges (demoPool [⟨10, 20⟩]).ipRanges 999 = true)) ∧
    (((demoPool [⟨10, 20⟩]).insertIP 999).1 = false →
      ((demoPool [⟨10, 20⟩]).insertIP 999).2 = demoPool [⟨10, 20⟩]) ∧
    (((demoPool [⟨10, 20⟩]).removeIP 999).1 = false ↔
      ((demoPool [⟨10, 20⟩]).subnetContains 999 = false ∨
        inRanges (demoPool [⟨10, 20⟩]).ipRanges 999 = false)) ∧
    (((demoPool [⟨10, 20⟩]).removeIP 999).1 = false →
      ((demoPool [⟨10, 20⟩]).removeIP 999).2 = demoPool [⟨10, 20⟩]) :=
  c3_noop_unchanged (demoPool [⟨10, 20⟩]) 999 (by decide) (by decide)

/-- C4: on a valid pool covering an in-subnet address `a`, `RemoveIP(a)`
followed by `InsertIP(a)` succeeds and restores the pool (hence its range
list) exactly, whichever of the four removal cases applied. -/
theorem c4_remove_insert_inverse (p : FloatingIPPool) (a : Nat) (hv : validPool p)
    (hsub : p.subnetContains a = true) (hcov : inRanges p.ipRanges a = true) :
    (p.removeIP a).1 = true ∧ (p.removeIP a).2.insertIP a = (true, p) := by
  have ha : a < 2 ^ 32 := lt_of_covered hv.1 hcov
  obtain ⟨rs1, heq1, hok1, hcov1, _⟩ := removeIP_ok hv.1 hsub hcov
  refine ⟨by rw [heq1], ?_⟩
  rw [heq1]
  have hcov1a : inRanges rs1 a = false := by
    cases h : inRanges rs1 a with
    | false => rfl
    | true =>
      have := (hcov1 a).mp h
      simp at this
  obtain ⟨rs2, heq2, hok2, hcov2, _⟩ :=
    insertIP_ok (p := { p with ipRanges := rs1 }) hok1 hsub hcov1a ha
  rw [heq2]
  have hrseq : rs2 = p.ipRanges := by
    refine rangesOK_unique rs2 p.ipRanges hok2 hv.1 ?_
    intro x
    rw [hcov2 x]
    constructor
    · rintro (hx | rfl)
      · exact ((hcov1 x).mp hx).1
      · exact hcov
    · intro hx
      by_cases hxa : x = a
      · exact Or.inr hxa
      · exact Or.inl ((hcov1 x).mpr ⟨hx, hxa⟩)
  rw [hrseq]

theorem c4_remove_insert_inverse_witness :
    ((demoPool [⟨10, 20⟩]).removeIP 15).1 = true ∧
    ((demoPool [⟨10, 20⟩]).removeIP 15).2.insertIP 15 = (true, demoPool [⟨10, 20⟩]) :=
  c4_remove_insert_inverse (demoPool [⟨10, 20⟩]) 15 (by decide) (by decide) (by decide)

/-- C5: `tryMerge` merges the pair into `[R_i.First, R_(i+1).Last]` exactly
when `R_(i+1).First = R_i.Last + 1`; after a high-side extension the check is
against the next range, after a low-side extension against the previous one
(which, the pool being valid when the scan reaches it, is never adjacent);
and on ranges `[10,10]`, `[12,12]`, inserting 11 yields the single range
`[10,12]`. -/
theorem c5_merge_rule :
    (∀ a b : IPRange, tryMerge a b =
      if b.first = a.last + 1 then [⟨a.first, b.last⟩] else [a, b]) ∧
    (∀ (a b : IPRange) (rest : List IPRange) (ip : Nat), rangesOK (a :: b :: rest) →
      ip < 2 ^ 32 → ip = a.last + 1 →
      insertRanges ip (a :: b :: rest) =
        some (if b.first = ip + 1 then ⟨a.first, b.last⟩ :: rest
          else ⟨a.first, ip⟩ :: b :: rest)) ∧
    (∀ (a b : IPRange) (rest : List IPRange) (ip : Nat), rangesOK (a :: b :: rest) →
      ip < 2 ^ 32 → a.last + 1 < ip → b.first = ip + 1 →
      insertRanges ip (a :: b :: rest) =
        some (tryMerge a ⟨ip, b.last⟩ ++ rest) ∧
      tryMerge a ⟨ip, b.last⟩ = [a, ⟨ip, b.last⟩]) ∧
    insertRanges 11 [⟨10, 10⟩, ⟨12, 12⟩] = some [⟨10, 12⟩] := by
  refine ⟨?_, ?_, ?_, by decide⟩
  · intro a b
    rw [tryMerge]
    by_cases h : b.first = a.last + 1
    · rw [if_pos (Minus_eq_one.mpr h), if_pos h]
    · rw [if_neg (fun hc => h (Minus_eq_one.mp hc)), if_neg h]
  · intro a b rest ip hok hip hipa
    have hw1 := (rangesOK_head_wf hok).1
    have hgab : a.last + 1 < b.first := (List.chain'_cons'.mp hok.2).1 b rfl
    have hcn : a.contains ip = false := by
      simp [IPRange.contains]
      omega
    have h1 : ¬ Minus a.first ip > 1 := by
      simp [Minus]
      omega
    have h2 : ¬ Minus a.first ip = 1 := by
      simp [Minus]
      omega
    have h3 : Minus a.last ip = -1 := by
      simp [Minus]
      omega
    by_cases hb : b.first = ip + 1
    · have hmerge : tryMerge ⟨a.first, ip⟩ b = [⟨a.first, b.last⟩] := by
        rw [tryMerge, if_pos]
        simp [Minus]
        omega
      rw [if_pos hb]
      simp [insertRanges, hcn, h1, h2, h3, hmerge]
    · have hmerge : tryMerge ⟨a.first, ip⟩ b = [⟨a.first, ip⟩, b] := by
        rw [tryMerge, if_neg]
        simp [Minus]
        omega
      rw [if_neg hb]
      simp [insertRanges, hcn, h1, h2, h3, hmerge]
  · intro a b rest ip hok hip hgap hb
    have hwa := rangesOK_head_wf hok
    have hwa1 := hwa.1
    have hwb1 := (rangesOK_head_wf (rangesOK_tail hok)).1
    have hgab : a.last + 1 < b.first := (List.chain'_cons'.mp hok.2).1 b rfl
    have hcna : a.contains ip = false := by
      simp [IPRange.contains]
      omega
    have ha1 : ¬ Minus a.first ip > 1 := by
      simp [Minus]
      omega
    have ha2 : ¬ Minus a.first ip = 1 := by
      simp [Minus]
      omega
    have ha3 : ¬ Minus a.last ip = -1 := by
      simp [Minus]
      omega
    have hcnb : b.contains ip = false := by
      simp [IPRange.contains]
      omega
    have hb1 : ¬ Minus b.first ip > 1 := by
      simp [Minus]
      omega
    have hb2 : Minus b.first ip = 1 := by
      simp [Minus]
      omega
    have hmerge : tryMerge a ⟨ip, b.last⟩ = [a, ⟨ip, b.last⟩] := by
      rw [tryMerge, if_neg]
      simp [Minus]
      omega
    constructor
    · simp [insertRanges, insertLoop, hcna, ha1, ha2, ha3, hcnb, hb1, hb2]
    · exact hmerge

theorem c5_merge_rule_witness :
    insertRanges 12 [⟨10, 11⟩, ⟨14, 20⟩] =
      some (if (14 : Nat) = 12 + 1 then (⟨10, 20⟩ : IPRange) :: [] else ⟨10, 12⟩ :: ⟨14, 20⟩ :: []) ∧
    (insertRanges 12 [⟨10, 10⟩, ⟨13, 20⟩] = some (tryMerge ⟨10, 10⟩ ⟨12, 20⟩ ++ []) ∧
      tryMerge (⟨10, 10⟩ : IPRange) ⟨12, 20⟩ = [⟨10, 10⟩, ⟨12, 20⟩]) ∧
    tryMerge (⟨10, 11⟩ : IPRange) ⟨12, 20⟩ =
      (if (12 : Nat) = 11 + 1 then [(⟨10, 20⟩ : IPRange)] else [⟨10, 11⟩, ⟨12, 20⟩]) :=
  ⟨c5_merge_rule.2.1 ⟨10, 11⟩ ⟨14, 20⟩ [] 12 (by decide) (by decide) (by decide),
   c5_merge_rule.2.2.1 ⟨10, 10⟩ ⟨13, 20⟩ [] 12 (by decide) (by decide) (by decide) (by decide),
   c5_merge_rule.1 ⟨10, 11⟩ ⟨12, 20⟩⟩

/-- Spec wording of the four `RemoveIP` cases of §4.3, as a second
definition to compare the implementation against: delete a singleton, shrink
at `First`, shrink at `Last`, or split in two. -/
def specRemoveCase (r : IPRange) (a : Nat) : List IPRange :=
  if r.first = r.last then []
  else if a = r.first then [⟨r.first + 1, r.last⟩]
  else if a = r.last then [⟨r.first, r.last - 1⟩]
  else [⟨r.first, a - 1⟩, ⟨a + 1, r.last⟩]

lemma removeRanges_at (a : Nat) (r : IPRange) (post : List IPRange) :
    ∀ pre, rangesOK (pre ++ r :: post) → r.contains a = true →
      removeRanges a (pre ++ r :: post) = some (pre ++ specRemoveCase r a ++ post)
  | [], hok, hc => by
    have hw := rangesOK_head_wf hok
    have hw1 := hw.1
    have hwb := hw.2
    have hcn : r.first ≤ a ∧ a ≤ r.last := by simpa using hc
    simp only [List.nil_append]
    rw [show removeRanges a (r :: post) =
      some (if r.first = r.last then post
        else if r.first = a then ⟨u32succ r.first, r.last⟩ :: post
        else if r.last = a then ⟨r.first, u32pred r.last⟩ :: post
        else ⟨r.first, u32pred a⟩ :: ⟨u32succ a, r.last⟩ :: post) by simp [removeRanges, hc]]
    by_cases e1 : r.first = r.last
    · simp [e1, specRemoveCase]
    · by_cases e2 : r.first = a
      · rw [if_neg e1, if_pos e2]
        rw [specRemoveCase, if_neg e1, if_pos e2.symm]
        rw [u32succ_eq (by omega)]
        simp
      · by_cases e3 : r.last = a
        · rw [if_neg e1, if_neg e2, if_pos e3]
          rw [specRemoveCase, if_neg e1, if_neg (fun h => e2 h.symm), if_pos e3.symm]
          rw [u32pred_eq (by omega) hwb]
          simp
        · rw [if_neg e1, if_neg e2, if_neg e3]
          rw [specRemoveCase, if_neg e1, if_neg (fun h => e2 h.symm),
            if_neg (fun h => e3 h.symm)]
          rw [u32pred_eq (by omega) (by omega), u32succ_eq (by omega)]
          simp
  | s :: pre', hok, hc => by
    have hcn : r.first ≤ a ∧ a ≤ r.last := by simpa using hc
    have hrmem : r ∈ pre' ++ r :: post :=
      List.mem_append_right _ (List.mem_cons_self _ _)
    have hgap : s.last + 1 < r.first := rangesOK_head_gap hok r hrmem
    have hsc : s.contains a = false := by
      simp [IPRange.contains]
      omega
    have ih := removeRanges_at a r post pre' (rangesOK_tail hok) hc
    rw [show (s :: pre') ++ r :: post = s :: (pre' ++ r :: post) from rfl]
    rw [show removeRanges a (s :: (pre' ++ r :: post)) =
      (removeRanges a (pre' ++ r :: post)).map (s :: ·) by simp [removeRanges, hsc]]
    rw [ih]
    rfl

/-- C6: on a valid pool whose list is `pre ++ [r] ++ post` with `r`
containing the in-subnet address `a`, `RemoveIP(a)` succeeds and applies
exactly one of the four cases: delete the singleton, advance `First` to
`a+1`, retreat `Last` to `a-1`, or split `r` into `[First, a-1]` and
`[a+1, Last]`; in particular on range `[10,20]`, removing 15 gives
`[10,14],[16,20]`, removing 10 gives `[11,20]`, removing 20 gives
`[10,19]`. -/
theorem c6_remove_cases (p : FloatingIPPool) (a : Nat) (pre post : List IPRange)
    (r : IPRange) (hok : rangesOK p.ipRanges) (hrs : p.ipRanges = pre ++ r :: post)
    (hc : r.contains a = true) (hsub : p.subnetContains a = true) :
    (p.removeIP a = (true, { p with ipRanges := pre ++ specRemoveCase r a ++ post }) ∧
      specRemoveCase r a =
        (if r.first = r.last then []
         else if a = r.first then [⟨r.first + 1, r.last⟩]
         else if a = r.last then [⟨r.first, r.last - 1⟩]
         else [⟨r.first, a - 1⟩, ⟨a + 1, r.last⟩])) ∧
    (demoPool [⟨10, 20⟩]).removeIP 15 = (true, demoPool [⟨10, 14⟩, ⟨16, 20⟩]) ∧
    (demoPool [⟨10, 20⟩]).removeIP 10 = (true, demoPool [⟨11, 20⟩]) ∧
    (demoPool [⟨10, 20⟩]).removeIP 20 = (true, demoPool [⟨10, 19⟩]) := by
  refine ⟨⟨?_, rfl⟩, by decide, by decide, by decide⟩
  have hres : removeRanges a p.ipRanges = some (pre ++ specRemoveCase r a ++ post) := by
    rw [hrs]
    exact removeRanges_at a r post pre (hrs ▸ hok) hc
  have hemp : ¬ p.ipRanges.isEmpty := by
    rw [hrs]
    cases pre <;> simp
  simp [FloatingIPPool.removeIP, hsub, hemp, hres]

theorem c6_remove_cases_witness :
    ((demoPool [⟨10, 20⟩]).removeIP 15 =
      (true, { demoPool [⟨10, 20⟩] with ipRanges := [] ++ specRemoveCase ⟨10, 20⟩ 15 ++ [] }) ∧
      specRemoveCase ⟨10, 20⟩ 15 =
        (if (10 : Nat) = 20 then []
         else if (15 : Nat) = 10 then [⟨11, 20⟩]
         else if (15 : Nat) = 20 then [⟨10, 19⟩]
         else [⟨10, 14⟩, ⟨16, 20⟩])) ∧
    (demoPool [⟨10, 20⟩]).removeIP 15 = (true, demoPool [⟨10, 14⟩, ⟨16, 20⟩]) ∧
    (demoPool [⟨10, 20⟩]).removeIP 10 = (true, demoPool [⟨11, 20⟩]) ∧
    (demoPool [⟨10, 20⟩]).removeIP 20 = (true, demoPool [⟨10, 19⟩]) :=
  c6_remove_cases (demoPool [⟨10, 20⟩]) 15 [] [] ⟨10, 20⟩ (by decide) rfl
    (by decide) (by decide)

instance {e a : Type} [DecidableEq e] [DecidableEq a] : DecidableEq (Except e a) :=
  fun x y =>
    match x, y with
    | .error u, .error v => decidable_of_iff (u = v) (by simp)
    | .error _, .ok _ => isFalse (by simp)
    | .ok _, .error _ => isFalse (by simp)
    | .ok u, .ok v => decidable_of_iff (u = v) (by simp)

/-- The pool with routable subnet 10.0.1.0/24 of the ordering example. -/
def poolA : FloatingIPPool := ⟨167772416, demoMask, 1, demoMask, 0, []⟩

/-- The pool with routable subnet 10.0.2.0/24 of the ordering example. -/
def poolB : FloatingIPPool := ⟨167772672, demoMask, 1, demoMask, 0, []⟩

/-- C9: `Less(i, j)` is true exactly when the numeric first address of pool
`i`'s routable subnet is strictly below that of pool `j`; pools with equal
first addresses are equivalent for the order (neither is less); and sorting
by this order puts the pool with routable subnet 10.0.1.0/24 before the one
with 10.0.2.0/24 whatever the input order. -/
theorem c9_pool_ordering :
    (∀ (s : List FloatingIPPool) (i j : Nat),
      sliceLess s i j = true ↔
        poolFirstIP (s.getD i default) < poolFirstIP (s.getD j default)) ∧
    (∀ (s : List FloatingIPPool) (i j : Nat),
      poolFirstIP (s.getD i default) = poolFirstIP (s.getD j default) →
        sliceLess s i j = false ∧ sliceLess s j i = false) ∧
    sliceLess [poolA, poolB] 0 1 = true ∧
    sliceLess [poolB, poolA] 0 1 = false ∧
    sortPools [poolA, poolB] = [poolA, poolB] ∧
    sortPools [poolB, poolA] = [poolA, poolB] := by
  refine ⟨?_, ?_, by decide, by decide, by decide, by decide⟩
  · intro s i j
    rw [sliceLess]
    exact decide_eq_true_iff
  · intro s i j h
    constructor
    · rw [sliceLess, h]
      simp
    · rw [sliceLess, h]
      simp

theorem c9_pool_ordering_witness :
    sliceLess [poolA, poolB] 1 1 = false ∧ sliceLess [poolB, poolA] 1 1 = false :=
  c9_pool_ordering.2.1 [poolA, poolB] 1 1 rfl

/-- C10: decoding never resets the receiver's range list: on success the
resulting list is the receiver's pre-existing ranges followed by the ranges
parsed from the document, validation having run over the combined list; the
document's ranges stand alone only when the receiver started empty. -/
theorem c10_decode_appends (fip : FloatingIPPool) (conf : FloatingIPPoolConf)
    (p' : FloatingIPPool) (h : fip.unmarshalJSON conf = .ok p') :
    ∃ parsed, parseIPs conf.ips = .ok parsed ∧
      p'.ipRanges = fip.ipRanges ++ parsed ∧
      fipCheck p'.gateway p'.mask (fip.ipRanges ++ parsed) = .ok () ∧
      (fip.ipRanges = [] → p'.ipRanges = parsed) := by
  cases hrsub : conf.routableSubnet with
  | none => simp [FloatingIPPool.unmarshalJSON, hrsub] at h
  | some rsub =>
  cases hgw : conf.gateway with
  | none => simp [FloatingIPPool.unmarshalJSON, hrsub, hgw] at h
  | some gw =>
  cases hsubn : conf.subnet with
  | none => simp [FloatingIPPool.unmarshalJSON, hrsub, hgw, hsubn] at h
  | some sub =>
  cases hparse : parseIPs conf.ips with
  | error e => simp [FloatingIPPool.unmarshalJSON, hrsub, hgw, hsubn, hparse] at h
  | ok parsed =>
  cases hcheck : fipCheck gw sub.mask (fip.ipRanges ++ parsed) with
  | error e =>
    simp [FloatingIPPool.unmarshalJSON, hrsub, hgw, hsubn, hparse, hcheck] at h
  | ok u =>
  simp only [FloatingIPPool.unmarshalJSON, hrsub, hgw, hsubn, hparse, hcheck,
    Except.ok.injEq] at h
  subst h
  exact ⟨parsed, rfl, rfl, by cases u; exact hcheck, fun he => by rw [he]; rfl⟩

/-- A receiver pool that already holds a range, for the decode-append
example. -/
def fipC : FloatingIPPool := ⟨0, 0, 0, 0, 0, [⟨10, 10⟩]⟩

/-- A configuration document declaring the single address 0.0.0.30. -/
def confC : FloatingIPPoolConf :=
  { routableSubnet := some ⟨167772416, demoMask⟩
    ips := [['0', '.', '0', '.', '0', '.', '3', '0']]
    subnet := some ⟨0, demoMask⟩
    gateway := some 1
    vlan := 0 }

/-- The pool obtained by decoding `confC` into `fipC`. -/
def poolC : FloatingIPPool := ⟨167772416, demoMask, 1, demoMask, 0, [⟨10, 10⟩, ⟨30, 30⟩]⟩

theorem c10_decode_appends_witness :
    ∃ parsed, parseIPs confC.ips = .ok parsed ∧
      poolC.ipRanges = fipC.ipRanges ++ parsed ∧
      fipCheck poolC.gateway poolC.mask (fipC.ipRanges ++ parsed) = .ok () ∧
      (fipC.ipRanges = [] → poolC.ipRanges = parsed) :=
  c10_decode_appends fipC confC poolC (by decide)

lemma natDigitsAux_isDigit : ∀ fuel n c, c ∈ natDigitsAux fuel n → c.isDigit = true := by
  intro fuel
  induction fuel with
  | zero => intro n c hc; simp [natDigitsAux] at hc
  | succ fuel ih =>
    intro n c hc
    rw [natDigitsAux] at hc
    by_cases h : n < 10
    · rw [if_pos h] at hc
      simp at hc
      subst hc
      interval_cases n <;> decide
    · rw [if_neg h] at hc
      rcases List.mem_append.mp hc with hc | hc
      · exact ih (n / 10) c hc
      · simp at hc
        subst hc
        have h10 : n % 10 < 10 := Nat.mod_lt _ (by omega)
        interval_cases h' : n % 10 <;> decide

lemma natDigits_isDigit {n : Nat} {c : Char} (hc : c ∈ natDigits n) : c.isDigit = true :=
  natDigitsAux_isDigit (n + 1) n c hc

lemma ipChars_mem {n : Nat} {c : Char} (hc : c ∈ ipChars n) :
    c.isDigit = true ∨ c = '.' := by
  rw [ipChars] at hc
  rcases List.mem_append.mp hc with hc | hc
  · exact Or.inl (natDigits_isDigit hc)
  rcases List.mem_cons.mp hc with rfl | hc
  · exact Or.inr rfl
  rcases List.mem_append.mp hc with hc | hc
  · exact Or.inl (natDigits_isDigit hc)
  rcases List.mem_cons.mp hc with rfl | hc
  · exact Or.inr rfl
  rcases List.mem_append.mp hc with hc | hc
  · exact Or.inl (natDigits_isDigit hc)
  rcases List.mem_cons.mp hc with rfl | hc
  · exact Or.inr rfl
  · exact Or.inl (natDigits_isDigit hc)

lemma isDigit_ne_dot {c : Char} (h : c.isDigit = true) : c ≠ '.' := by
  intro hc
  subst hc
  simp at h

lemma isDigit_ne_dash {c : Char} (h : c.isDigit = true) : c ≠ '-' := by
  intro hc
  subst hc
  simp at h

lemma ipChars_ne_dot {n : Nat} {c : Char} (hc : c ∈ ipChars n) : c ≠ '.' → c.isDigit = true := by
  intro h
  rcases ipChars_mem hc with h1 | h1
  · exact h1
  · exact absurd h1 h

lemma ipChars_ne_dash {n : Nat} {c : Char} (hc : c ∈ ipChars n) : c ≠ '-' := by
  rcases ipChars_mem hc with h1 | h1
  · exact isDigit_ne_dash h1
  · subst h1
    decide

lemma splitOnChar_no_sep {c : Char} : ∀ {xs : List Char},
    (∀ x ∈ xs, x ≠ c) → splitOnChar c xs = [xs] := by
  intro xs
  induction xs with
  | nil => intro _; rfl
  | cons x xs ih =>
    intro h
    rw [splitOnChar, if_neg (h x (List.mem_cons_self _ _)),
      ih (fun y hy => h y (List.mem_cons_of_mem _ hy))]

lemma splitOnChar_append {c : Char} : ∀ {xs ys : List Char},
    (∀ x ∈ xs, x ≠ c) → splitOnChar c (xs ++ c :: ys) = xs :: splitOnChar c ys := by
  intro xs
  induction xs with
  | nil =>
    intro ys _
    rw [List.nil_append, splitOnChar, if_pos rfl]
  | cons x xs ih =>
    intro ys h
    rw [List.cons_append, splitOnChar, if_neg (h x (List.mem_cons_self _ _)),
      ih (fun y hy => h y (List.mem_cons_of_mem _ hy))]

set_option maxRecDepth 4000 in
lemma parseOctet_natDigits : ∀ n < 256, parseOctet (natDigits n) = some n := by decide

lemma parseIPv4_ipChars {n : Nat} (hn : n < 2 ^ 32) : parseIPv4 (ipChars n) = some n := by
  have hsplit : splitOnChar '.' (ipChars n) =
      [natDigits (n / 16777216 % 256), natDigits (n / 65536 % 256),
       natDigits (n / 256 % 256), natDigits (n % 256)] := by
    rw [ipChars]
    rw [splitOnChar_append (fun x hx => isDigit_ne_dot (natDigits_isDigit hx))]
    rw [splitOnChar_append (fun x hx => isDigit_ne_dot (natDigits_isDigit hx))]
    rw [splitOnChar_append (fun x hx => isDigit_ne_dot (natDigits_isDigit hx))]
    rw [splitOnChar_no_sep (fun x hx => isDigit_ne_dot (natDigits_isDigit hx))]
  have h1 : parseOctet (natDigits (n / 16777216 % 256)) = some (n / 16777216 % 256) :=
    parseOctet_natDigits _ (Nat.mod_lt _ (by omega))
  have h2 : parseOctet (natDigits (n / 65536 % 256)) = some (n / 65536 % 256) :=
    parseOctet_natDigits _ (Nat.mod_lt _ (by omega))
  have h3 : parseOctet (natDigits (n / 256 % 256)) = some (n / 256 % 256) :=
    parseOctet_natDigits _ (Nat.mod_lt _ (by omega))
  have h4 : parseOctet (natDigits (n % 256)) = some (n % 256) :=
    parseOctet_natDigits _ (Nat.mod_lt _ (by omega))
  simp only [parseIPv4, hsplit, h1, h2, h3, h4, Option.some.injEq]
  omega

/-- Round trip of the textual range grammar: parsing the canonical rendering
of a 32-bit range yields the range back. -/
lemma parseIPRange_toChars {r : IPRange} (hf : r.first < 2 ^ 32)
    (hl : r.last < 2 ^ 32) : parseIPRange r.toChars = some r := by
  rw [IPRange.toChars]
  by_cases h : r.first = r.last
  · rw [if_pos h]
    have hs : splitOnChar '-' (ipChars r.first) = [ipChars r.first] :=
      splitOnChar_no_sep (fun x hx => ipChars_ne_dash hx)
    simp only [parseIPRange, hs, parseIPv4_ipChars hf, Option.map_some',
      Option.some.injEq]
    cases r
    simp_all
  · rw [if_neg h]
    have hs : splitOnChar '-' (ipChars r.first ++ '-' :: ipChars r.last) =
        [ipChars r.first, ipChars r.last] := by
      rw [splitOnChar_append (fun x hx => ipChars_ne_dash hx),
        splitOnChar_no_sep (fun x hx => ipChars_ne_dash hx)]
    simp only [parseIPRange, hs, parseIPv4_ipChars hf, parseIPv4_ipChars hl]

/-- Parsing the rendered list of a list of 32-bit ranges yields the list
back. -/
lemma parseIPs_map_toChars : ∀ rs : List IPRange,
    (∀ r ∈ rs, r.first < 2 ^ 32 ∧ r.last < 2 ^ 32) →
    parseIPs (rs.map IPRange.toChars) = .ok rs := by
  intro rs
  induction rs with
  | nil => intro _; rfl
  | cons r rest ih =>
    intro h
    have hw := h r (List.mem_cons_self _ _)
    rw [List.map_cons]
    simp only [parseIPs, parseIPRange_toChars hw.1 hw.2,
      ih fun s hs => h s (List.mem_cons_of_mem _ hs)]
    rfl

lemma fipCheckFrom_ok {gw mask : Nat} : ∀ (rs : List IPRange) (prev : IPRange),
    (∀ r ∈ rs, ipNetContains gw mask r.first = true ∧ ipNetContains gw mask r.last = true) →
    rangesOK (prev :: rs) →
    fipCheckFrom gw mask prev rs = .ok () := by
  intro rs
  induction rs with
  | nil => intro prev _ _; rfl
  | cons r rest ih =>
    intro prev hsub hok
    have hgap : prev.last + 1 < r.first := (List.chain'_cons'.mp hok.2).1 r rfl
    have hwr := rangesOK_head_wf (rangesOK_tail hok)
    have hwr1 := hwr.1
    have hwrb := hwr.2
    have hc := hsub r (List.mem_cons_self _ _)
    rw [fipCheckFrom, if_neg (by simp [hc.1, hc.2]), if_neg (by
      rw [u32succ_eq (by omega)]
      omega)]
    exact ih r (fun s hs => hsub s (List.mem_cons_of_mem _ hs)) (rangesOK_tail hok)

/-- Validation succeeds on the range list of a valid pool. -/
lemma fipCheck_ok_of_valid {p : FloatingIPPool} (hv : validPool p) :
    fipCheck p.gateway p.mask p.ipRanges = .ok () := by
  cases hrs : p.ipRanges with
  | nil => rfl
  | cons r rest =>
    have hsub : ∀ s ∈ p.ipRanges, ipNetContains p.gateway p.mask s.first = true ∧
        ipNetContains p.gateway p.mask s.last = true := hv.2
    rw [hrs] at hsub
    have hc := hsub r (List.mem_cons_self _ _)
    rw [fipCheck, if_neg (by simp [hc.1, hc.2])]
    exact fipCheckFrom_ok rest r (fun s hs => hsub s (List.mem_cons_of_mem _ hs))
      (hrs ▸ hv.1)

lemma parseOctet_le {cs : List Char} {n : Nat} (h : parseOctet cs = some n) : n ≤ 255 := by
  rw [parseOctet] at h
  cases hp : parseDecimal cs with
  | none => rw [hp] at h; simp at h
  | some m =>
    simp only [hp] at h
    split at h
    · simp at h
      omega
    · simp at h

lemma parseIPv4_lt {cs : List Char} {n : Nat} (h : parseIPv4 cs = some n) : n < 2 ^ 32 := by
  rw [parseIPv4] at h
  cases hs : splitOnChar '.' cs with
  | nil => rw [hs] at h; simp at h
  | cons a rest =>
    rw [hs] at h
    match rest with
    | [] => simp at h
    | [b] => simp at h
    | [b, c] => simp at h
    | [b, c, d] =>
      cases hpa : parseOctet a with
      | none => simp [hpa] at h
      | some x =>
        cases hpb : parseOctet b with
        | none => simp [hpa, hpb] at h
        | some y =>
          cases hpc : parseOctet c with
          | none => simp [hpa, hpb, hpc] at h
          | some z =>
            cases hpd : parseOctet d with
            | none => simp [hpa, hpb, hpc, hpd] at h
            | some w =>
              simp [hpa, hpb, hpc, hpd] at h
              have h1 := parseOctet_le hpa
              have h2 := parseOctet_le hpb
              have h3 := parseOctet_le hpc
              have h4 := parseOctet_le hpd
              omega
    | b :: c :: d :: e :: rest' => simp at h

lemma parseIPRange_lt {cs : List Char} {r : IPRange} (h : parseIPRange cs = some r) :
    r.first < 2 ^ 32 ∧ r.last < 2 ^ 32 := by
  rw [parseIPRange] at h
  cases hs : splitOnChar '-' cs with
  | nil => rw [hs] at h; simp at h
  | cons a rest =>
    rw [hs] at h
    match rest with
    | [] =>
      cases hpa : parseIPv4 a with
      | none => simp [hpa] at h
      | some x =>
        simp [hpa] at h
        subst h
        exact ⟨parseIPv4_lt hpa, parseIPv4_lt hpa⟩
    | [b] =>
      cases hpa : parseIPv4 a with
      | none => simp [hpa] at h
      | some x =>
        cases hpb : parseIPv4 b with
        | none => simp [hpa, hpb] at h
        | some y =>
          simp [hpa, hpb] at h
          subst h
          exact ⟨parseIPv4_lt hpa, parseIPv4_lt hpb⟩
    | b :: c :: rest' => simp at h

lemma parseIPs_lt : ∀ {ss : List (List Char)} {rs : List IPRange},
    parseIPs ss = .ok rs → ∀ r ∈ rs, r.first < 2 ^ 32 ∧ r.last < 2 ^ 32 := by
  intro ss
  induction ss with
  | nil =>
    intro rs h r hr
    rw [parseIPs] at h
    simp at h
    subst h
    simp at hr
  | cons s rest ih =>
    intro rs h r hr
    rw [parseIPs] at h
    cases hp : parseIPRange s with
    | none => rw [hp] at h; simp at h
    | some r0 =>
      rw [hp] at h
      cases hrec : parseIPs rest with
      | error e => rw [hrec] at h; simp [Except.map] at h
      | ok rs0 =>
        rw [hrec] at h
        simp [Except.map] at h
        subst h
        rcases List.mem_cons.mp hr with rfl | hr
        · exact parseIPRange_lt hp
        · exact ih hrec r hr

/-- The range text 255.0.0.1-255.255.255.255. -/
def wrapText1 : List Char :=
  ['2','5','5','.','0','.','0','.','1','-','2','5','5','.','2','5','5','.','2','5','5','.','2','5','5']

/-- The range text 255.0.0.5. -/
def wrapText2 : List Char := ['2','5','5','.','0','.','0','.','5']

/-- A configuration document over the subnet 255.0.0.0/8 declaring the
ranges 255.0.0.1-255.255.255.255 and 255.0.0.5, which overlap. -/
def wrapConf : FloatingIPPoolConf :=
  { routableSubnet := some ⟨167772416, demoMask⟩
    ips := [wrapText1, wrapText2]
    subnet := some ⟨4278190080, 4278190080⟩
    gateway := some 4278190081
    vlan := 0 }

/-- C7 (divergence at the failing input): `fipCheck` compares
`First_i <= Last_(i-1) + 1` in `uint32` arithmetic, so when a declared range
ends at 255.255.255.255 the `+ 1` wraps to 0 and the order-or-overlap check
is vacuous: decoding `wrapConf` succeeds even though its two declared ranges
overlap (both contain 255.0.0.5 = 4278190085) and
`First_2 <= Last_1 + 1` holds in exact arithmetic, where the spec requires
an order-or-overlap error. -/
theorem c7_order_check_wrap :
    FloatingIPPool.unmarshalJSON ⟨0, 0, 0, 0, 0, []⟩ wrapConf =
      .ok ⟨167772416, 4294967040, 4278190081, 4278190080, 0,
        [⟨4278190081, 4294967295⟩, ⟨4278190085, 4278190085⟩]⟩ ∧
    (4278190085 : Nat) ≤ 4294967295 + 1 ∧
    u32succ 4294967295 = 0 ∧
    IPRange.contains ⟨4278190081, 4294967295⟩ 4278190085 = true ∧
    IPRange.contains ⟨4278190085, 4278190085⟩ 4278190085 = true :=
  ⟨by decide, by decide, by decide, by decide, by decide⟩

/-- A structurally valid document whose declared subnet address
(192.168.0.0) is not the network address of its gateway (0.0.0.1). -/
def mismatchConf : FloatingIPPoolConf :=
  { routableSubnet := some ⟨167772416, demoMask⟩
    ips := []
    subnet := some ⟨3232235520, demoMask⟩
    gateway := some 1
    vlan := 0 }

/-- C8 counterexample: decoding `mismatchConf` succeeds, but re-encoding the
decoded pool emits `gateway & mask` as the subnet address, not the
document's subnet address: encode(decode(doc)) does not reproduce the
document's subnet for every structurally valid document. -/
theorem c8_subnet_not_reproduced :
    FloatingIPPool.unmarshalJSON ⟨0, 0, 0, 0, 0, []⟩ mismatchConf =
      .ok ⟨167772416, 4294967040, 1, 4294967040, 0, []⟩ ∧
    (FloatingIPPool.marshalJSON ⟨167772416, 4294967040, 1, 4294967040, 0, []⟩).subnet ≠
      mismatchConf.subnet ∧
    (FloatingIPPool.marshalJSON ⟨167772416, 4294967040, 1, 4294967040, 0, []⟩).gateway =
      mismatchConf.gateway ∧
    (FloatingIPPool.marshalJSON ⟨167772416, 4294967040, 1, 4294967040, 0, []⟩).vlan =
      mismatchConf.vlan :=
  ⟨by decide, by decide, by decide, by decide⟩

/-- C8 as amended: (a) decoding the encoded form of a valid pool into an
empty receiver succeeds and yields identical range list, gateway, mask and
vlan, with the routable subnet normalized by masking; (b) re-encoding any
successfully decoded document reproduces its gateway and vlan, emits the
declared subnet mask with the gateway's network address as the subnet
address, the routable subnet normalized by masking, and range texts that
parse back to exactly the ranges of the document. -/
theorem c8_roundtrip_amended :
    (∀ fip0 p : FloatingIPPool, fip0.ipRanges = [] → validPool p →
      ∃ p', fip0.unmarshalJSON p.marshalJSON = .ok p' ∧
        p'.ipRanges = p.ipRanges ∧ p'.gateway = p.gateway ∧
        p'.mask = p.mask ∧ p'.vlan = p.vlan ∧
        p'.routableBase = Nat.land p.routableBase p.routableMask ∧
        p'.routableMask = p.routableMask) ∧
    (∀ (fip0 p' : FloatingIPPool) (conf : FloatingIPPoolConf),
      fip0.ipRanges = [] → fip0.unmarshalJSON conf = .ok p' →
      p'.marshalJSON.gateway = conf.gateway ∧
      p'.marshalJSON.vlan = conf.vlan ∧
      (∀ sub, conf.subnet = some sub →
        p'.marshalJSON.subnet = some ⟨Nat.land p'.gateway sub.mask, sub.mask⟩) ∧
      (∀ rsub, conf.routableSubnet = some rsub →
        p'.marshalJSON.routableSubnet = some ⟨Nat.land rsub.ip rsub.mask, rsub.mask⟩) ∧
      parseIPs p'.marshalJSON.ips = parseIPs conf.ips) := by
  constructor
  · intro fip0 p hemp hv
    have hparse : parseIPs (p.ipRanges.map IPRange.toChars) = .ok p.ipRanges :=
      parseIPs_map_toChars _ fun r hr =>
        ⟨by have h1 := (hv.1.1 r hr).1; have h2 := (hv.1.1 r hr).2; omega,
         (hv.1.1 r hr).2⟩
    have hcheck : fipCheck p.gateway p.mask (fip0.ipRanges ++ p.ipRanges) = .ok () := by
      rw [hemp, List.nil_append]
      exact fipCheck_ok_of_valid hv
    refine ⟨{ fip0 with
        routableBase := Nat.land p.routableBase p.routableMask
        routableMask := p.routableMask
        gateway := p.gateway
        mask := p.mask
        vlan := p.vlan
        ipRanges := fip0.ipRanges ++ p.ipRanges }, ?_, by simp [hemp], rfl, rfl, rfl,
      rfl, rfl⟩
    simp only [FloatingIPPool.unmarshalJSON, FloatingIPPool.marshalJSON, hparse, hcheck]
  · intro fip0 p' conf hemp h
    cases hrsub : conf.routableSubnet with
    | none => simp [FloatingIPPool.unmarshalJSON, hrsub] at h
    | some rsub =>
    cases hgw : conf.gateway with
    | none => simp [FloatingIPPool.unmarshalJSON, hrsub, hgw] at h
    | some gw =>
    cases hsubn : conf.subnet with
    | none => simp [FloatingIPPool.unmarshalJSON, hrsub, hgw, hsubn] at h
    | some sub =>
    cases hparse : parseIPs conf.ips with
    | error e => simp [FloatingIPPool.unmarshalJSON, hrsub, hgw, hsubn, hparse] at h
    | ok parsed =>
    cases hcheck : fipCheck gw sub.mask (fip0.ipRanges ++ parsed) with
    | error e =>
      simp [FloatingIPPool.unmarshalJSON, hrsub, hgw, hsubn, hparse, hcheck] at h
    | ok u =>
    simp only [FloatingIPPool.unmarshalJSON, hrsub, hgw, hsubn, hparse, hcheck,
      Except.ok.injEq] at h
    subst h
    refine ⟨by simp [FloatingIPPool.marshalJSON, hgw], by simp [FloatingIPPool.marshalJSON],
      ?_, ?_, ?_⟩
    · intro sub' hsub'
      injection hsub' with hsub'
      subst hsub'
      simp [FloatingIPPool.marshalJSON]
    · intro rsub' hrsub'
      injection hrsub' with hrsub'
      subst hrsub'
      simp [FloatingIPPool.marshalJSON]
    · show parseIPs ((fip0.ipRanges ++ parsed).map IPRange.toChars) = Except.ok parsed
      rw [hemp, List.nil_append]
      exact parseIPs_map_toChars parsed (parseIPs_lt hparse)

/-- The valid pool used to instantiate the amended round-trip law. -/
def rtPool : FloatingIPPool := ⟨167772416, demoMask, 1, demoMask, 0, [⟨10, 20⟩]⟩

theorem c8_roundtrip_amended_witness :
    (∃ p', (⟨0, 0, 0, 0, 0, []⟩ : FloatingIPPool).unmarshalJSON rtPool.marshalJSON =
        .ok p' ∧
      p'.ipRanges = rtPool.ipRanges ∧ p'.gateway = rtPool.gateway ∧
      p'.mask = rtPool.mask ∧ p'.vlan = rtPool.vlan ∧
      p'.routableBase = Nat.land rtPool.routableBase rtPool.routableMask ∧
      p'.routableMask = rtPool.routableMask) ∧
    parseIPs (FloatingIPPool.marshalJSON
        ⟨167772416, 4294967040, 1, 4294967040, 0, []⟩).ips =
      parseIPs mismatchConf.ips :=
  ⟨c8_roundtrip_amended.1 ⟨0, 0, 0, 0, 0, []⟩ rtPool rfl (by decide),
   (c8_roundtrip_amended.2 ⟨0, 0, 0, 0, 0, []⟩
      ⟨167772416, 4294967040, 1, 4294967040, 0, []⟩ mismatchConf rfl
      (by decide)).2.2.2.2⟩

end Galaxy
